import Mathlib

/-!
Shallow embedding of the FreeStream event-to-audio delivery core and a
verification of the specification claims about it.  The definitions below
transliterate the Python sources under app/: the text sanitizer of
EventProcessor, the threshold check, the TTS synthesizer cache, the
priority queue service built on the CPython heapq algorithms, and the
audio retrieval route.  Regex substitutions are embedded as left-to-right
scanners with an explicit fuel argument bounding the number of scan steps;
every scan step consumes at least one input character, so fuel equal to
the input length always suffices and the fallback branch is unreachable.
-/

namespace FreeStream

/-- ASCII word characters: the regex class of letters, digits and
underscore used by the emote pattern in EventProcessor._clean_text. -/
def isWordChar (c : Char) : Bool :=
  c.isAlpha || c.isDigit || c = '_'

/-- Whitespace characters recognised by the regex whitespace class and by
str.strip (the embedding restricts attention to ASCII whitespace). -/
def isPySpace (c : Char) : Bool :=
  c = ' ' || c = '\t' || c = '\n' || c = '\r' || c = '\x0b' || c = '\x0c'

/-- One left-to-right re.sub pass over the emote pattern (a colon, one or
more word characters, a closing colon), replacing each match with the
empty string.  At a match the scanner resumes after the closing colon; at
a failed position it emits one character and advances by one. -/
def stripEmotesGo : Nat → List Char → List Char
  | _, [] => []
  | 0, l => l
  | fuel + 1, c :: rest =>
    if c = ':' then
      match rest.dropWhile isWordChar with
      | d :: tail =>
        if d = ':' ∧ rest.takeWhile isWordChar ≠ [] then
          stripEmotesGo fuel tail
        else
          c :: stripEmotesGo fuel rest
      | [] => c :: stripEmotesGo fuel rest
    else
      c :: stripEmotesGo fuel rest

def stripEmotes (l : List Char) : List Char := stripEmotesGo l.length l

def httpChars : List Char := ['h', 't', 't', 'p', ':', '/', '/']

def httpsChars : List Char := ['h', 't', 't', 'p', 's', ':', '/', '/']

/-- One left-to-right re.sub pass over the URL pattern (literal http or
https scheme, colon, double slash, then one or more non-whitespace
characters, greedily), replacing each match with the empty string. -/
def stripUrlsGo : Nat → List Char → List Char
  | _, [] => []
  | 0, l => l
  | fuel + 1, c :: rest =>
    let l := c :: rest
    let plen : Nat :=
      if httpChars.isPrefixOf l then 7
      else if httpsChars.isPrefixOf l then 8
      else 0
    if plen = 0 then c :: stripUrlsGo fuel rest
    else
      let body := (l.drop plen).takeWhile (fun d => !isPySpace d)
      if body = [] then c :: stripUrlsGo fuel rest
      else stripUrlsGo fuel ((l.drop plen).dropWhile (fun d => !isPySpace d))

def stripUrls (l : List Char) : List Char := stripUrlsGo l.length l

/-- One re.sub pass replacing every maximal whitespace run with a single
space character. -/
def collapseWsGo : Nat → List Char → List Char
  | _, [] => []
  | 0, l => l
  | fuel + 1, c :: rest =>
    if isPySpace c then ' ' :: collapseWsGo fuel (rest.dropWhile isPySpace)
    else c :: collapseWsGo fuel rest

def collapseWs (l : List Char) : List Char := collapseWsGo l.length l

/-- Python str.strip: drop whitespace from both ends. -/
def pyStrip (l : List Char) : List Char :=
  ((l.dropWhile isPySpace).reverse.dropWhile isPySpace).reverse

/-- The characters removed by the special-character class in _clean_text:
angle brackets, curly braces, square brackets, pipe, backslash, caret,
tilde and backquote. -/
def isSpecialChar (c : Char) : Bool :=
  c = '<' || c = '>' || c = '\x7b' || c = '\x7d' || c = '[' || c = ']' ||
  c = '|' || c = '\\' || c = '^' || c = '~' || c = '\x60'

/-- The re.sub pass removing every special character is a filter. -/
def removeSpecial (l : List Char) : List Char :=
  l.filter (fun c => !isSpecialChar c)

/-- One left-to-right re.sub pass collapsing any character (other than a
newline, which the dot of the pattern never matches) repeated four or more
times to exactly two copies. -/
def collapseRepeatsGo : Nat → List Char → List Char
  | _, [] => []
  | 0, l => l
  | fuel + 1, c :: rest =>
    if c = '\n' then c :: collapseRepeatsGo fuel rest
    else if 3 ≤ (rest.takeWhile (· == c)).length then
      c :: c :: collapseRepeatsGo fuel (rest.dropWhile (· == c))
    else c :: collapseRepeatsGo fuel rest

def collapseRepeats (l : List Char) : List Char := collapseRepeatsGo l.length l

/-- EventProcessor._clean_text: strip emote tokens, strip URLs, collapse
whitespace runs to single spaces and trim, remove special characters and
finally collapse long character repeats, in exactly this order. -/
def cleanText (l : List Char) : List Char :=
  collapseRepeats (removeSpecial (pyStrip (collapseWs (stripUrls (stripEmotes l)))))

def cleanTextS (s : String) : String := ⟨cleanText s.data⟩

/-! Predicates describing whitespace-normalized text, used to state when
the sanitize pipeline has reached a fixpoint. -/

/-- Every whitespace character of the list is a plain space. -/
def onlyPlainWs (l : List Char) : Bool :=
  l.all (fun c => !isPySpace c || c == ' ')

/-- No two adjacent characters are both spaces. -/
def noTwoSpaces : List Char → Bool
  | c :: d :: rest => !(c == ' ' && d == ' ') && noTwoSpaces (d :: rest)
  | _ => true

/-- The first character, when present, is not whitespace. -/
def headNotWs (l : List Char) : Bool :=
  match l.head? with
  | some c => !isPySpace c
  | none => true

/-- The last character, when present, is not whitespace. -/
def lastNotWs (l : List Char) : Bool :=
  match l.getLast? with
  | some c => !isPySpace c
  | none => true

/-! Threshold check of EventProcessor._meets_threshold.  The superchat and
supersticker amounts are Python floats: the adapter computes
amount = amountMicros / 1_000_000 (true division of ints, the correctly
rounded binary64 quotient in CPython) and the check computes
int(event.amount * 100) (binary64 product rounded to nearest, ties to
even, then truncated toward zero).  Floats are embedded as
mantissa-exponent pairs m * 2^e over ℤ with round-to-nearest-even and
unbounded exponent range: faithful to IEEE-754 binary64 on the whole
normal finite range, which covers every monetary amount concerned (no
overflow, no subnormals). -/

/-- A binary64 value m * 2^e.  Nonzero results of the rounding below are
normalized with 2^52 ≤ taking the absolute value of m < 2^53. -/
structure F64 where
  m : ℤ
  e : ℤ
deriving DecidableEq, Repr

/-- Scale n up by doubling (tracking the exponent) until n / d has at
least 53 bits; the fuel bounds the number of doublings. -/
def f64Up (d : ℤ) : Nat → ℤ × ℤ → ℤ × ℤ
  | 0, p => p
  | fuel + 1, (n, e) => if n < d * 2 ^ 52 then f64Up d fuel (2 * n, e - 1) else (n, e)

/-- Scale d up by doubling (tracking the exponent) until n / d has at
most 53 bits. -/
def f64Down (n : ℤ) : Nat → ℤ × ℤ → ℤ × ℤ
  | 0, p => p
  | fuel + 1, (d, e) => if d * 2 ^ 53 ≤ n then f64Down n fuel (2 * d, e + 1) else (d, e)

/-- Round q + r / d (with 0 ≤ r < d) to the nearest integer, ties to
even. -/
def rneAdjust (d q r : ℤ) : ℤ :=
  if 2 * r < d then q
  else if d < 2 * r then q + 1
  else if q % 2 = 0 then q else q + 1

/-- The nonnegative rational n / d (d positive) rounded to the nearest
binary64, ties to even. -/
def f64OfPos (n d : ℤ) : F64 :=
  let p1 := f64Up d 1200 (n, 0)
  let p2 := f64Down p1.1 1200 (d, p1.2)
  let q := p1.1 / p2.1
  let r := p1.1 % p2.1
  let m := rneAdjust p2.1 q r
  if m = 2 ^ 53 then ⟨2 ^ 52, p2.2 + 1⟩ else ⟨m, p2.2⟩

/-- The rational n / d (d positive) rounded to the nearest binary64. -/
def f64OfRat (n d : ℤ) : F64 :=
  if n < 0 then
    let x := f64OfPos (-n) d
    ⟨-x.m, x.e⟩
  else f64OfPos n d

/-- An integer converted to binary64 (exact for up to 53 bits). -/
def f64OfInt (k : ℤ) : F64 :=
  f64OfRat k 1

/-- Binary64 multiplication: the exact product of the two mantissas,
rounded back to 53 bits, at the sum of the exponents. -/
def fMul (x y : F64) : F64 :=
  let z := f64OfRat (x.m * y.m) 1
  ⟨z.m, z.e + x.e + y.e⟩

/-- Python int() applied to a binary64 value: truncation toward zero. -/
def fTrunc (x : F64) : ℤ :=
  if 0 ≤ x.e then x.m * 2 ^ x.e.toNat
  else if 0 ≤ x.m then x.m / 2 ^ (-x.e).toNat
  else -((-x.m) / 2 ^ (-x.e).toNat)

/-- YouTubeSuperChatEvent.from_livechat / YouTubeSuperStickerEvent
.from_livechat: amount = amountMicros / 1_000_000, CPython true division
of ints, the correctly rounded binary64 quotient. -/
def superchatAmount (micros : ℤ) : F64 :=
  f64OfRat micros 1000000

/-- The threshold-relevant configuration fields. -/
structure ThresholdConfig where
  bitsMinimum : ℤ
  giftSubsMinimum : ℤ
  channelPointsRewards : List String
  superchatMinimumCents : ℤ

/-- The threshold-relevant shape of a stream event: the variants examined
by _meets_threshold with the fields it reads. -/
inductive ThrEvent where
  | bits (amount : ℤ)
  | giftSub (count : ℤ)
  | channelPoints (rewardId : String)
  | superchat (amount : F64)
  | supersticker (amount : F64)
  | other
deriving DecidableEq

/-- EventProcessor._meets_threshold: bits and gift counts against their
minima, channel points against the allow list (empty list allows all),
superchat and supersticker float amounts converted to cents by
int(amount * 100) in binary64 arithmetic (multiply rounds to nearest,
int truncates toward zero) and compared with the configured minimum;
every other kind passes. -/
def meetsThreshold (cfg : ThresholdConfig) : ThrEvent → Bool
  | .bits amount => cfg.bitsMinimum ≤ amount
  | .giftSub count => cfg.giftSubsMinimum ≤ count
  | .channelPoints rewardId =>
    if cfg.channelPointsRewards.isEmpty then true
    else cfg.channelPointsRewards.contains rewardId
  | .superchat amount => cfg.superchatMinimumCents ≤ fTrunc (fMul amount (f64OfInt 100))
  | .supersticker amount => cfg.superchatMinimumCents ≤ fTrunc (fMul amount (f64OfInt 100))
  | .other => true

/-- Modelled from the spec: the threshold rule for superchat and
supersticker amounts as the specification words it, rounding the amount
times one hundred instead of truncating it. -/
def specSuperchatPasses (amount : ℚ) (minCents : ℤ) : Bool :=
  minCents ≤ round (amount * 100)

/-! Python str.replace with an empty replacement, and the audio retrieval
route built from it.  The scanner again carries fuel bounded by the input
length. -/

/-- One pass of str.replace pat with the empty string: non-overlapping
matches, scanned left to right. -/
def pyEraseGo (pat : List Char) : Nat → List Char → List Char
  | _, [] => []
  | 0, l => l
  | fuel + 1, c :: rest =>
    if pat.isPrefixOf (c :: rest) then
      pyEraseGo pat fuel ((c :: rest).drop pat.length)
    else
      c :: pyEraseGo pat fuel rest

def pyErase (l pat : List Char) : List Char := pyEraseGo pat l.length l

/-- True when the list contains two adjacent dots. -/
def hasDDot : List Char → Bool
  | c :: d :: rest => ((c == '.') && (d == '.')) || hasDDot (d :: rest)
  | _ => false

/-- get_audio sanitization: strip every slash, then every backslash, then
every occurrence of two adjacent dots from the requested audio id. -/
def sanitizeAudioId (s : String) : String :=
  ⟨pyErase (pyErase (pyErase s.data ['/']) ['\\']) ['.', '.']⟩

/-- TTSService.get_audio_path: the candidate file is the cache directory
joined with the id and a .wav extension; it is returned only when it
exists (the filesystem is embedded as the list of existing paths). -/
def getAudioPath (fs : List String) (cacheDir : String) (audioId : String) :
    Option String :=
  let p := cacheDir ++ "/" ++ audioId ++ ".wav"
  if fs.contains p then some p else none

/-- Response of the audio route: the served file path, or a 404. -/
inductive AudioResponse where
  | file (path : String)
  | notFound
deriving DecidableEq

/-- get_audio route: sanitize the id, resolve it in the cache, serve the
file when it resolves and answer 404 otherwise. -/
def getAudio (fs : List String) (cacheDir : String) (audioId : String) :
    AudioResponse :=
  match getAudioPath fs cacheDir (sanitizeAudioId audioId) with
  | some p => .file p
  | none => .notFound

/-- A path lies within a directory when it is the directory, a separator
and a single component that is free of separators and is not a dot or a
double dot (so it cannot escape the directory). -/
def WithinDir (dir p : String) : Prop :=
  ∃ name : String, p = dir ++ "/" ++ name ∧ ('/' ∉ name.data) ∧
    name ≠ "." ∧ name ≠ ".."

/-! The queue service.  The heap is the CPython heapq algorithm
transliterated on lists; PriorityItem compares by its priority field only
(timestamp and message carry no compare), and the constructor negates the
message priority so the min-heap yields higher priorities first.  Clock
readings are passed explicitly as integers (every claim about time is
order-theoretic, so integer instants embed the float clock faithfully); the md5 content hash of the duplicate
detector is embedded as the hashed text itself. -/

inductive Platform where
  | twitch
  | youtube
deriving DecidableEq

structure TTSMsg where
  id : String
  text : String
  displayText : Option String := none
  priority : Int := 1
  platform : Option Platform := none
  eventType : Option String := none
  audioPath : Option String := none
  createdAt : ℤ := 0
deriving DecidableEq, Inhabited

structure PItem where
  key : Int
  ts : ℤ
  msg : TTSMsg
deriving DecidableEq, Inhabited

/-- PriorityItem.__init__: negated priority as the comparison key, plus
the creation timestamp and the message, both excluded from comparison. -/
def mkPItem (m : TTSMsg) : PItem :=
  { key := -m.priority, ts := m.createdAt, msg := m }

/-- CPython heapq._siftdown: while the new item is strictly smaller than
the parent of the hole, move the parent into the hole; finally place the
new item.  The fuel equals the starting position, which strictly
decreases, so the zero-fuel fallback is unreachable. -/
def siftdownLoop (startpos : Nat) (newitem : PItem) :
    Nat → List PItem → Nat → List PItem
  | 0, heap, pos => heap.set pos newitem
  | fuel + 1, heap, pos =>
    if startpos < pos then
      let parentpos := (pos - 1) / 2
      let parent := heap.getD parentpos default
      if newitem.key < parent.key then
        siftdownLoop startpos newitem fuel (heap.set pos parent) parentpos
      else heap.set pos newitem
    else heap.set pos newitem

/-- CPython heapq._siftup: move the smaller child up until reaching a
leaf, then sift the new item down from the leaf position. -/
def siftupLoop (endpos startpos : Nat) (newitem : PItem) :
    Nat → List PItem → Nat → List PItem
  | 0, heap, pos => siftdownLoop startpos newitem pos (heap.set pos newitem) pos
  | fuel + 1, heap, pos =>
    let childpos := 2 * pos + 1
    if childpos < endpos then
      let rightpos := childpos + 1
      let best :=
        if rightpos < endpos ∧
            ¬ (heap.getD childpos default).key < (heap.getD rightpos default).key then
          rightpos
        else childpos
      siftupLoop endpos startpos newitem fuel
        (heap.set pos (heap.getD best default)) best
    else siftdownLoop startpos newitem pos (heap.set pos newitem) pos

/-- heapq.heappush: append the item, then sift down from the new slot. -/
def heappush (heap : List PItem) (item : PItem) : List PItem :=
  siftdownLoop 0 item heap.length (heap ++ [item]) heap.length

/-- heapq.heappop: remove the last element; when items remain, return the
root, move the last element to the root and sift it up.  An empty heap
yields none (the IndexError of the source). -/
def heappop (heap : List PItem) : Option (PItem × List PItem) :=
  match heap.getLast? with
  | none => none
  | some lastelt =>
    let rest := heap.dropLast
    if rest = [] then some (lastelt, [])
    else
      some (rest.getD 0 default,
        siftupLoop rest.length 0 lastelt rest.length (rest.set 0 lastelt) 0)

/-- The binary min-heap ordering on the list: every non-root slot is at
least its parent, comparing keys only as PriorityItem does. -/
def IsMinHeap (l : List PItem) : Prop :=
  ∀ i : Nat, 0 < i → i < l.length →
    (l.getD ((i - 1) / 2) default).key ≤ (l.getD i default).key

/-- Events emitted to browser clients over the socket. -/
inductive Emit where
  | queueUpdate (size maxSize : Nat) (current : Option String)
      (twitchRemaining youtubeRemaining : Nat)
  | ttsReady (id audioId text : String) (eventType : Option String)
      (platform : Option Platform)
  | skipAlert
deriving DecidableEq

structure QConfig where
  maxSize : Nat
  rateTwitch : Nat
  rateYoutube : Nat
  rateWindow : ℤ := 60
  dupWindow : ℤ
deriving DecidableEq

structure QState where
  queue : List PItem := []
  messages : List (String × TTSMsg) := []
  current : Option TTSMsg := none
  dupSeen : List (String × ℤ) := []
  twitchTokens : List ℤ := []
  youtubeTokens : List ℤ := []
  emits : List Emit := []
deriving DecidableEq, Inhabited

/-- DuplicateDetector.is_duplicate: prune entries older than the window,
answer true on a fresh hit, otherwise record the text now. -/
def isDuplicate (window now : ℤ) (seen : List (String × ℤ)) (text : String) :
    Bool × List (String × ℤ) :=
  let pruned := seen.filter (fun kv => now - kv.2 < window)
  match pruned.lookup text with
  | some _ => (true, pruned)
  | none => (false, (text, now) :: pruned)

/-- RateLimiter.is_allowed: drop tokens at or before now minus the window,
then admit and record the call iff the count is below the rate. -/
def rateAllowed (rate : Nat) (window now : ℤ) (tokens : List ℤ) :
    Bool × List ℤ :=
  let pruned := tokens.filter (fun t => now - window < t)
  if pruned.length < rate then (true, pruned ++ [now]) else (false, pruned)

/-- RateLimiter.get_remaining: prune, then report rate minus the count,
floored at zero by the truncated subtraction. -/
def rateRemaining (rate : Nat) (window now : ℤ) (tokens : List ℤ) :
    Nat × List ℤ :=
  let pruned := tokens.filter (fun t => now - window < t)
  (rate - pruned.length, pruned)

def QConfig.rateFor : QConfig → Platform → Nat
  | cfg, .twitch => cfg.rateTwitch
  | cfg, .youtube => cfg.rateYoutube

def QState.tokensFor : QState → Platform → List ℤ
  | st, .twitch => st.twitchTokens
  | st, .youtube => st.youtubeTokens

def QState.setTokens : QState → Platform → List ℤ → QState
  | st, .twitch, toks => { st with twitchTokens := toks }
  | st, .youtube, toks => { st with youtubeTokens := toks }

/-- get_queue_status at a clock reading: get_remaining prunes both rate
limiters; the status carries the queue size, the bound and the id of the
current message. -/
def queueStatus (cfg : QConfig) (now : ℤ) (st : QState) : Emit × QState :=
  let (remT, tokT) := rateRemaining cfg.rateTwitch cfg.rateWindow now st.twitchTokens
  let (remY, tokY) := rateRemaining cfg.rateYoutube cfg.rateWindow now st.youtubeTokens
  (.queueUpdate st.queue.length cfg.maxSize (st.current.map (·.id)) remT remY,
   { st with twitchTokens := tokT, youtubeTokens := tokY })

/-- QueueService._notify_queue_update. -/
def notifyQueueUpdate (cfg : QConfig) (now : ℤ) (st : QState) : QState :=
  let (e, st') := queueStatus cfg now st
  { st' with emits := st'.emits ++ [e] }

/-- The audio id sent to clients: the last slash-separated component of
the artifact path with every occurrence of .wav removed. -/
def audioIdOf (path : String) : String :=
  ⟨pyErase ((path.data.reverse.takeWhile (fun c => !(c == '/'))).reverse)
    ['.', 'w', 'a', 'v']⟩

/-- QueueService.get_next: pop the heap when nonempty, drop the entry
from the id map and make the popped message current. -/
def getNext (st : QState) : Option TTSMsg × QState :=
  match heappop st.queue with
  | none => (none, st)
  | some (item, q) =>
    (some item.msg,
     { st with queue := q,
               messages := st.messages.filter (fun kv => !(kv.1 == item.msg.id)),
               current := some item.msg })

/-- The text sent with tts_ready: the display text unless it is missing
or empty (falsy in the source), in which case the spoken text. -/
def displayOf (m : TTSMsg) : String :=
  match m.displayText with
  | some d => if d = "" then m.text else d
  | none => m.text

/-- QueueService._send_next: poll the next message; when one exists and
carries an audio path, emit tts_ready with its id, the derived audio id,
the display text falling back to the spoken text, and the event fields. -/
def sendNext (st : QState) : QState :=
  match getNext st with
  | (some m, st') =>
    match m.audioPath with
    | some p =>
      { st' with emits :=
          st'.emits ++ [.ttsReady m.id (audioIdOf p) (displayOf m) m.eventType m.platform] }
    | none => st'
  | (none, st') => st'

/-- QueueService.add_message after the duplicate and rate gates: when the
queue is at or over the bound, pop the heap root and drop it from the id
map; push the new item; record it; notify clients; when no message is
current, immediately send the next one. -/
def addCore (cfg : QConfig) (now : ℤ) (st : QState) (m : TTSMsg) : QState :=
  let st :=
    if cfg.maxSize ≤ st.queue.length then
      match heappop st.queue with
      | some (removed, q) =>
        { st with queue := q,
                  messages := st.messages.filter
                    (fun kv => !(kv.1 == removed.msg.id)) }
      | none => st
    else st
  let st := { st with queue := heappush st.queue (mkPItem m),
                      messages := (m.id, m) ::
                        st.messages.filter (fun kv => !(kv.1 == m.id)) }
  let st := notifyQueueUpdate cfg now st
  if st.current = none then sendNext st else st

/-- QueueService.add_message: the duplicate gate runs first and records
the text, then the per-platform rate gate when the message carries an
event, then the queue body; a gate failure rejects with false. -/
def addMessage (cfg : QConfig) (now : ℤ) (st : QState) (m : TTSMsg) :
    Bool × QState :=
  let (dup, seen) := isDuplicate cfg.dupWindow now st.dupSeen m.text
  let st := { st with dupSeen := seen }
  if dup then (false, st)
  else
    match m.platform with
    | some p =>
      let (ok, toks) := rateAllowed (cfg.rateFor p) cfg.rateWindow now (st.tokensFor p)
      let st := st.setTokens p toks
      if ok then (true, addCore cfg now st m) else (false, st)
    | none => (true, addCore cfg now st m)

/-- QueueService.mark_complete: clear the current message only when the
acknowledged id matches it, then unconditionally send the next one. -/
def markComplete (st : QState) (msgId : String) : QState :=
  let st :=
    match st.current with
    | some c => if c.id = msgId then { st with current := none } else st
    | none => st
  sendNext st

/-- QueueService.skip_current: clear the current message, emit skip to
every client and send the next one. -/
def skipCurrent (st : QState) : QState :=
  let st := { st with current := none }
  let st := { st with emits := st.emits ++ [.skipAlert] }
  sendNext st

/-- QueueService.clear_queue: drop all queued messages and their id map,
keep the current one, and notify clients. -/
def clearQueue (cfg : QConfig) (now : ℤ) (st : QState) : QState :=
  notifyQueueUpdate cfg now { st with queue := [], messages := [] }

/-- The externally drivable operations of the queue service. -/
inductive QOp where
  | add (now : ℤ) (m : TTSMsg)
  | complete (msgId : String)
  | skip
  | clear (now : ℤ)
  | poll

def stepOp (cfg : QConfig) (st : QState) : QOp → QState
  | .add now m => (addMessage cfg now st m).2
  | .complete msgId => markComplete st msgId
  | .skip => skipCurrent st
  | .clear now => clearQueue cfg now st
  | .poll => (getNext st).2

/-- States reachable from the freshly initialized service. -/
inductive Reachable (cfg : QConfig) : QState → Prop where
  | init : Reachable cfg {}
  | step {st : QState} (op : QOp) : Reachable cfg st → Reachable cfg (stepOp cfg st op)

/-! TTSService synthesize with its content-addressed cache, and a two
client interleaving exhibiting the absence of single flight.  The sha256
based cache key is embedded as the key data string itself (the hash is
collision-free for the purposes of the claims); cache maintenance deletes
by age and size, is orthogonal to the claims, and is not modelled. -/

structure TTSConfig where
  maxLength : Nat
  voice : String
  speed : String

/-- Truncation applied by synthesize before keying: texts longer than the
configured maximum are cut and get a three-dot suffix. -/
def truncateText (cfg : TTSConfig) (text : String) : String :=
  if cfg.maxLength < text.length then text.take cfg.maxLength ++ "..." else text

/-- TTSService._get_cache_key: text, voice and speed joined by pipes (the
16 hex character sha256 digest is embedded as the key data itself). -/
def cacheKey (cfg : TTSConfig) (text : String) : String :=
  text ++ "|" ++ cfg.voice ++ "|" ++ cfg.speed

structure CacheState where
  entries : List (String × List Nat) := []
  backendCalls : Nat := 0
deriving DecidableEq

def cachePathOf (key : String) : String := "cache/" ++ key ++ ".wav"

/-- TTSService.synthesize run to completion without interleaving: reject
empty or whitespace-only text, truncate, return the cached path on a hit,
otherwise call the backend once and write the artifact. -/
def synthesize (cfg : TTSConfig) (backend : String → List Nat)
    (st : CacheState) (text : String) : Option (String × CacheState) :=
  if (pyStrip text.data).isEmpty then none
  else
    let t := truncateText cfg text
    let key := cacheKey cfg t
    if (st.entries.lookup key).isSome then some (cachePathOf key, st)
    else
      some (cachePathOf key,
        { entries := (key, backend t) :: st.entries,
          backendCalls := st.backendCalls + 1 })

/-- Phase of one in-flight synthesize call: before the cache existence
check, after a miss, or finished with a path. -/
inductive SynPhase where
  | start
  | missed
  | done (path : String)
deriving DecidableEq

structure SynWorld where
  cache : CacheState
  th0 : SynPhase
  th1 : SynPhase
deriving DecidableEq

/-- One atomic step of a synthesize call: the cache existence check, and
separately the backend call plus artifact write.  The source lock guards
only the write, so the checks and writes of two calls may interleave. -/
def synStep (cfg : TTSConfig) (backend : String → List Nat) (text : String)
    (cache : CacheState) (ph : SynPhase) : CacheState × SynPhase :=
  let key := cacheKey cfg (truncateText cfg text)
  match ph with
  | .start =>
    if (cache.entries.lookup key).isSome then (cache, .done (cachePathOf key))
    else (cache, .missed)
  | .missed =>
    ({ entries := (key, backend (truncateText cfg text)) :: cache.entries,
       backendCalls := cache.backendCalls + 1 }, .done (cachePathOf key))
  | .done p => (cache, .done p)

/-- Run two concurrent synthesize calls for the same text under an
explicit schedule (false picks thread zero, true picks thread one). -/
def synRun (cfg : TTSConfig) (backend : String → List Nat) (text : String) :
    SynWorld → List Bool → SynWorld
  | w, [] => w
  | w, pick :: rest =>
    let w' :=
      if pick then
        let (c, p) := synStep cfg backend text w.cache w.th1
        { w with cache := c, th1 := p }
      else
        let (c, p) := synStep cfg backend text w.cache w.th0
        { w with cache := c, th0 := p }
    synRun cfg backend text w' rest

/-! Concrete fixtures used by counterexamples and witnesses. -/

/-- A threshold configuration whose only constraint of interest is the
superchat minimum in cents. -/
def thrCfg (mc : ℤ) : ThresholdConfig :=
  { bitsMinimum := 0, giftSubsMinimum := 0, channelPointsRewards := [],
    superchatMinimumCents := mc }

/-- A message fixture with an id, a priority and a cached audio path. -/
def fxMsg (i : String) (p : Int) : TTSMsg :=
  { id := i, text := "t" ++ i, priority := p,
    audioPath := some ("cache/a" ++ i ++ ".wav") }

/-- A queue configuration with bound two. -/
def fxCfg : QConfig :=
  { maxSize := 2, rateTwitch := 30, rateYoutube := 30, dupWindow := 5 }

/-- A full bound-two queue holding priorities 3 and 2 with a priority 1
message in flight. -/
def fxFull : QState :=
  { queue := [mkPItem (fxMsg "m2" 3), mkPItem (fxMsg "m3" 2)],
    messages := [("m2", fxMsg "m2" 3), ("m3", fxMsg "m3" 2)],
    current := some (fxMsg "m1" 1) }

/-- A state with message m1 pending and message m2 queued. -/
def fxPend : QState :=
  { queue := [mkPItem (fxMsg "m2" 1)],
    messages := [("m2", fxMsg "m2" 1)],
    current := some (fxMsg "m1" 1) }

/-- A queue configuration whose rate limiters admit nothing. -/
def fxCfg0 : QConfig :=
  { maxSize := 2, rateTwitch := 0, rateYoutube := 0, dupWindow := 5 }

/-- An idle state (no current message) with one queued message. -/
def fxIdle : QState :=
  { queue := [mkPItem (fxMsg "m6" 2)], messages := [("m6", fxMsg "m6" 2)] }

def fxTts : TTSConfig := { maxLength := 500, voice := "v", speed := "1" }

def fxW0 : SynWorld := { cache := {}, th0 := .start, th1 := .start }

/-! Claim theorems and their supporting lemmas. -/

/-- C7: sanitizing the text Yaaaaaaaay followed by the URL https://x.y and
the emote token Kappa yields exactly Yaay: the emote token and the URL are
stripped, whitespace is collapsed and trimmed, and the run of repeated
characters is collapsed to two. -/
theorem c7_sanitize_boundary_example :
    cleanTextS "Yaaaaaaaay https://x.y :Kappa:" = "Yaay" := by decide

/-- C5 counterexample: sanitize is not idempotent.  On the input h<ttp://a
the first pass only removes the angle bracket, producing http://a, which
the second pass then strips as a URL, so sanitizing twice differs from
sanitizing once. -/
theorem c5_sanitize_not_idempotent :
    cleanTextS (cleanTextS "h<ttp://a") ≠ cleanTextS "h<ttp://a" := by decide

/-- C2: the code contradicts the claim.  With message m1 pending and
message m2 queued, a play_complete carrying the id of m2 (different from
the pending m1) is not ignored: mark_complete unconditionally sends the
next message, so m2 is dequeued, overwrites the current message m1 and a
tts_ready for m2 is emitted while m1 is still in flight. -/
theorem c2_stale_ack_dispatches_next :
    markComplete fxPend "m2" =
    { queue := [], messages := [], current := some (fxMsg "m2" 1),
      emits := [.ttsReady "m2" "am2" "tm2" none none] } := by decide

/-- C1 counterexample: with bound 2, a full queue holding priorities 3 and
2 and a message in flight, offering a message of priority 1, strictly
lower than everything queued, is not rejected: add_message returns true,
and the entry evicted is the priority 3 message, which the negated
priority min-heap keeps at its root, leaving priorities 2 and 1 queued. -/
theorem c1_claim_false_on_full_queue :
    (addMessage fxCfg 3 fxFull (fxMsg "m5" 1)).1 = true ∧
    ((addMessage fxCfg 3 fxFull (fxMsg "m5" 1)).2.queue.map
      (fun it => (it.msg.id, it.msg.priority))) = [("m3", 2), ("m5", 1)] := by decide

/-- C3 counterexample: no single flight.  Two concurrent synthesize calls
for the same text can both run the cache existence check before either
write, and then both issue a backend call: under this interleaving the
backend is called twice, though both callers end with the same path. -/
theorem c3_no_single_flight_two_backend_calls :
    (synRun fxTts (fun _ => [1]) "hello" fxW0 [false, true, false, true]).cache.backendCalls
      = 2 ∧
    (synRun fxTts (fun _ => [1]) "hello" fxW0 [false, true, false, true]).th0 =
      .done "cache/hello|v|1.wav" ∧
    (synRun fxTts (fun _ => [1]) "hello" fxW0 [false, true, false, true]).th1 =
      .done "cache/hello|v|1.wav" := by decide

/-- C4 counterexample: the code truncates the binary64 product instead of
rounding.  At amountMicros 999000 (amount 0.999) with a minimum of 100
cents, the specification formula rounds 99.9 to 100 and passes, but the
code evaluates 0.999 * 100 in binary64 to slightly under 99.9 and int
truncates it to 99, so the event is rejected. -/
theorem c4_truncation_differs_from_round :
    meetsThreshold (thrCfg 100) (.superchat (superchatAmount 999000)) = false ∧
    specSuperchatPasses (999 / 1000) 100 = true := by
  refine ⟨by decide, ?_⟩
  simp only [specSuperchatPasses, decide_eq_true_eq]
  norm_num [round_eq]

/-- C4 amended: a youtube superchat or supersticker passes the threshold
check exactly when int(amount * 100), evaluated in binary64 floating
point on the amount amountMicros / 1_000_000, reaches min_cents.
Truncating the inexact product diverges from the rounding formula even at
whole-cent amounts: 0.29 * 100 evaluates to just under 29, int gives 28,
and an amount of 0.29 (290000 micros) is rejected at min_cents 29 though
round(0.29 * 100) = 29 passes.  The two instances quoted by the claim
stand, their products being exact in binary64: amount 0.50 at min_cents
100 is rejected and amount 1.00 at min_cents 100 is queued. -/
theorem c4_amended_float_truncation :
    (fTrunc (fMul (superchatAmount 290000) (f64OfInt 100)) = 28 ∧
     meetsThreshold (thrCfg 29) (.superchat (superchatAmount 290000)) = false ∧
     specSuperchatPasses (29 / 100) 29 = true) ∧
    meetsThreshold (thrCfg 100) (.superchat (superchatAmount 500000)) = false ∧
    meetsThreshold (thrCfg 100) (.supersticker (superchatAmount 1000000)) = true := by
  refine ⟨⟨by decide, by decide, ?_⟩, by decide, by decide⟩
  simp only [specSuperchatPasses, decide_eq_true_eq]
  norm_num [round_eq]

theorem length_siftdownLoop (startpos : Nat) (newitem : PItem) :
    ∀ (fuel : Nat) (heap : List PItem) (pos : Nat),
      (siftdownLoop startpos newitem fuel heap pos).length = heap.length := by
  intro fuel
  induction fuel with
  | zero => intro heap pos; simp [siftdownLoop]
  | succ n ih =>
    intro heap pos
    simp only [siftdownLoop]
    split
    · split
      · rw [ih]; simp
      · simp
    · simp

theorem length_siftupLoop (endpos startpos : Nat) (newitem : PItem) :
    ∀ (fuel : Nat) (heap : List PItem) (pos : Nat),
      (siftupLoop endpos startpos newitem fuel heap pos).length = heap.length := by
  intro fuel
  induction fuel with
  | zero => intro heap pos; simp [siftupLoop, length_siftdownLoop]
  | succ n ih =>
    intro heap pos
    simp only [siftupLoop]
    split
    · rw [ih]; simp
    · simp [length_siftdownLoop]

theorem length_heappush (heap : List PItem) (item : PItem) :
    (heappush heap item).length = heap.length + 1 := by
  simp [heappush, length_siftdownLoop]

theorem heappop_eq_none_iff (heap : List PItem) : heappop heap = none ↔ heap = [] := by
  unfold heappop
  cases hl : heap.getLast? with
  | none => simp_all [List.getLast?_eq_none_iff]
  | some lastelt =>
    have : heap ≠ [] := by rintro rfl; simp at hl
    simp only []
    constructor
    · intro h
      split at h <;> simp_all
    · intro h
      exact absurd h this

theorem heappop_length {heap : List PItem} {x : PItem} {rest : List PItem}
    (h : heappop heap = some (x, rest)) : rest.length + 1 = heap.length := by
  unfold heappop at h
  cases hl : heap.getLast? with
  | none => rw [hl] at h; simp at h
  | some lastelt =>
    rw [hl] at h
    dsimp only at h
    have hne : heap ≠ [] := by rintro rfl; simp at hl
    have hpos : 0 < heap.length := List.length_pos.mpr hne
    have hdl := List.length_dropLast heap
    by_cases hd : heap.dropLast = []
    · rw [if_pos hd] at h
      simp only [Option.some.injEq, Prod.mk.injEq] at h
      obtain ⟨hx, hrest⟩ := h
      subst hrest
      rw [hd] at hdl
      simp only [List.length_nil] at hdl ⊢
      omega
    · rw [if_neg hd] at h
      simp only [Option.some.injEq, Prod.mk.injEq] at h
      obtain ⟨hx, hrest⟩ := h
      subst hrest
      rw [length_siftupLoop]
      simp only [List.length_set]
      omega

theorem heappop_fst {heap : List PItem} {x : PItem} {rest : List PItem}
    (h : heappop heap = some (x, rest)) : x = heap.getD 0 default := by
  unfold heappop at h
  cases hl : heap.getLast? with
  | none => rw [hl] at h; simp at h
  | some lastelt =>
    rw [hl] at h
    dsimp only at h
    have hne : heap ≠ [] := by rintro rfl; simp at hl
    by_cases hd : heap.dropLast = []
    · rw [if_pos hd] at h
      simp only [Option.some.injEq, Prod.mk.injEq] at h
      obtain ⟨hx, hrest⟩ := h
      subst hx
      have h1 : heap.length = 1 := by
        have hdl := List.length_dropLast heap
        rw [hd] at hdl
        simp at hdl
        have := List.length_pos.mpr hne
        omega
      obtain ⟨a, ha⟩ : ∃ a, heap = [a] := List.length_eq_one.mp h1
      subst ha
      simp [List.getLast?] at hl
      simp [hl]
    · rw [if_neg hd] at h
      simp only [Option.some.injEq, Prod.mk.injEq] at h
      obtain ⟨hx, hrest⟩ := h
      subst hx
      have hlen : 0 < heap.dropLast.length := List.length_pos.mpr hd
      have hlen2 : 0 < heap.length - 1 := by
        have := List.length_dropLast heap
        omega
      simp only [List.getD, List.get?_eq_getElem?]
      rw [List.dropLast_eq_take, List.getElem?_take_of_lt hlen2]

theorem getNext_queue_length (st : QState) :
    ((getNext st).2).queue.length ≤ st.queue.length := by
  unfold getNext
  cases h : heappop st.queue with
  | none => simp
  | some pr =>
    obtain ⟨item, q⟩ := pr
    have := heappop_length h
    dsimp only
    omega

theorem sendNext_queue (st : QState) :
    (sendNext st).queue = (getNext st).2.queue := by
  unfold sendNext
  rcases h : getNext st with ⟨m?, st1⟩
  cases m? with
  | none => rfl
  | some m =>
    cases hap : m.audioPath <;> simp [hap]

theorem sendNext_queue_le (st : QState) :
    (sendNext st).queue.length ≤ st.queue.length := by
  rw [sendNext_queue]; exact getNext_queue_length st

theorem notify_queue (cfg : QConfig) (now : ℤ) (st : QState) :
    (notifyQueueUpdate cfg now st).queue = st.queue := rfl

theorem setTokens_queue (st : QState) (p : Platform) (toks : List ℤ) :
    (QState.setTokens st p toks).queue = st.queue := by
  cases p <;> rfl

theorem addCore_queue_le (cfg : QConfig) (now : ℤ) (st : QState) (m : TTSMsg)
    (hb : 1 ≤ cfg.maxSize) (hq : st.queue.length ≤ cfg.maxSize) :
    (addCore cfg now st m).queue.length ≤ cfg.maxSize := by
  unfold addCore
  dsimp only
  by_cases hfull : cfg.maxSize ≤ st.queue.length
  · rw [if_pos hfull]
    have hne : st.queue ≠ [] := by
      intro he
      rw [he] at hfull
      simp at hfull
      omega
    cases hpop : heappop st.queue with
    | none => exact absurd ((heappop_eq_none_iff _).mp hpop) hne
    | some pr =>
      obtain ⟨rem, q⟩ := pr
      have hlen := heappop_length hpop
      dsimp only
      split
      · calc (sendNext _).queue.length ≤ _ := sendNext_queue_le _
          _ ≤ cfg.maxSize := by
            rw [notify_queue]
            dsimp only
            rw [length_heappush]
            omega
      · rw [notify_queue]
        dsimp only
        rw [length_heappush]
        omega
  · rw [if_neg hfull]
    split
    · calc (sendNext _).queue.length ≤ _ := sendNext_queue_le _
        _ ≤ cfg.maxSize := by
          rw [notify_queue]
          dsimp only
          rw [length_heappush]
          omega
    · rw [notify_queue]
      dsimp only
      rw [length_heappush]
      omega

theorem addMessage_queue_le (cfg : QConfig) (now : ℤ) (st : QState) (m : TTSMsg)
    (hb : 1 ≤ cfg.maxSize) (hq : st.queue.length ≤ cfg.maxSize) :
    ((addMessage cfg now st m).2).queue.length ≤ cfg.maxSize := by
  unfold addMessage
  dsimp only
  split
  · exact hq
  · cases hp : m.platform with
    | none => exact addCore_queue_le cfg now _ m hb hq
    | some p =>
      dsimp only
      split
      · exact addCore_queue_le cfg now _ m hb (by rw [setTokens_queue]; exact hq)
      · rw [setTokens_queue]
        exact hq

theorem stepOp_queue_le (cfg : QConfig) (st : QState) (op : QOp)
    (hb : 1 ≤ cfg.maxSize) (hq : st.queue.length ≤ cfg.maxSize) :
    (stepOp cfg st op).queue.length ≤ cfg.maxSize := by
  cases op with
  | add now m => exact addMessage_queue_le cfg now st m hb hq
  | complete msgId =>
    dsimp only [stepOp]
    unfold markComplete
    refine le_trans ?_ hq
    split <;> first
      | exact sendNext_queue_le _
      | (split <;> exact sendNext_queue_le _)
  | skip =>
    dsimp only [stepOp]
    unfold skipCurrent
    exact le_trans (sendNext_queue_le _) hq
  | clear now =>
    dsimp only [stepOp]
    unfold clearQueue
    rw [notify_queue]
    simp
  | poll => exact le_trans (getNext_queue_length st) hq

/-- C6: for every sequence of offers, polls, skips, completion acks and
clears, the number of messages held in the priority queue never exceeds
the configured bound (for any positive bound): add_message pops one entry
before pushing whenever the queue is at or over the bound, and every
other operation only shrinks the queue. -/
theorem c6_queue_size_bounded (cfg : QConfig) (hb : 1 ≤ cfg.maxSize) :
    ∀ st : QState, Reachable cfg st → st.queue.length ≤ cfg.maxSize := by
  intro st h
  induction h with
  | init => simp
  | step op hr ih => exact stepOp_queue_le cfg _ op hb ih

/-- C6 witness: the invariant instantiated on the bound-two configuration
after one concrete offer. -/
theorem c6_queue_size_bounded_witness :
    1 ≤ fxCfg.maxSize ∧
    (stepOp fxCfg {} (.add 0 (fxMsg "m1" 1))).queue.length ≤ fxCfg.maxSize :=
  ⟨by decide, c6_queue_size_bounded fxCfg (by decide) _ (Reachable.step _ Reachable.init)⟩

theorem isMinHeap_root_le (l : List PItem) (hh : IsMinHeap l) :
    ∀ i : Nat, i < l.length → (l.getD 0 default).key ≤ (l.getD i default).key := by
  intro i
  induction i using Nat.strong_induction_on with
  | _ i ih =>
    intro hi
    rcases Nat.eq_zero_or_pos i with rfl | hpos
    · exact le_refl _
    · have hparent : (i - 1) / 2 < i :=
        lt_of_le_of_lt (Nat.div_le_self _ _) (by omega)
      exact le_trans (ih _ hparent (lt_trans hparent hi)) (hh i hpos hi)

theorem isMinHeap_root_max_priority (l : List PItem) (hh : IsMinHeap l)
    (hkey : ∀ it ∈ l, it.key = -it.msg.priority) :
    ∀ it ∈ l, it.msg.priority ≤ (l.getD 0 default).msg.priority := by
  intro it hit
  obtain ⟨i, hi, hgi⟩ := List.mem_iff_getElem.mp hit
  have hroot : (l.getD 0 default) ∈ l := by
    have h0 : 0 < l.length := lt_of_le_of_lt (Nat.zero_le _) hi
    rw [List.getD_eq_getElem l default h0]
    exact List.getElem_mem h0
  have h1 := isMinHeap_root_le l hh i hi
  rw [List.getD_eq_getElem l default hi, hgi] at h1
  have h2 := hkey it hit
  have h3 := hkey _ hroot
  omega

/-- C9: invoking skip when no message is in flight is not a no-op: it
still emits a skip event to all clients and, when the queue is nonempty,
dequeues the heap root, which carries a maximal priority among the queued
messages, makes it the new current message and emits tts_ready for it. -/
theorem c9_skip_when_idle_dispatches (st : QState) (p : String)
    (_hcur : st.current = none) (hne : st.queue ≠ [])
    (hheap : IsMinHeap st.queue)
    (hkey : ∀ it ∈ st.queue, it.key = -it.msg.priority)
    (hpath : (st.queue.getD 0 default).msg.audioPath = some p) :
    (skipCurrent st).current = some (st.queue.getD 0 default).msg ∧
    (skipCurrent st).emits = st.emits ++ [.skipAlert,
      .ttsReady (st.queue.getD 0 default).msg.id (audioIdOf p)
        (displayOf (st.queue.getD 0 default).msg)
        (st.queue.getD 0 default).msg.eventType
        (st.queue.getD 0 default).msg.platform] ∧
    ∀ it ∈ st.queue, it.msg.priority ≤ (st.queue.getD 0 default).msg.priority := by
  have hsome : ∃ pr, heappop st.queue = some pr := by
    cases h : heappop st.queue with
    | none => exact absurd ((heappop_eq_none_iff _).mp h) hne
    | some pr => exact ⟨pr, rfl⟩
  obtain ⟨⟨root, q⟩, hpop⟩ := hsome
  have hroot := heappop_fst hpop
  subst hroot
  constructor
  · unfold skipCurrent sendNext getNext
    dsimp only
    rw [hpop]
    dsimp only
    rw [hpath]
  constructor
  · unfold skipCurrent sendNext getNext
    dsimp only
    rw [hpop]
    dsimp only
    rw [hpath]
    simp
  · exact isMinHeap_root_max_priority st.queue hheap hkey

/-- C9 witness: the skip behaviour on a concrete idle state with one
queued message. -/
theorem c9_skip_when_idle_dispatches_witness :
    (skipCurrent fxIdle).current = some (fxMsg "m6" 2) ∧
    (skipCurrent fxIdle).emits = [.skipAlert, .ttsReady "m6" "am6" "tm6" none none] := by
  have h := c9_skip_when_idle_dispatches fxIdle "cache/am6.wav" rfl (by decide)
    (by intro i h1 h2; simp [fxIdle] at h2; omega) (by decide) (by decide)
  exact ⟨h.1, h.2.1⟩

theorem notify_current (cfg : QConfig) (now : ℤ) (st : QState) :
    (notifyQueueUpdate cfg now st).current = st.current := rfl

/-- C1 amended: when the queue is full, an offer that passes the
duplicate gate (and carries no event, so the rate gate is skipped) is
never rejected: add_message returns true, pops the heap root, which under
the min-heap ordering on negated priorities is a highest-priority entry,
pushes the new message and leaves the queue length unchanged. -/
theorem c1_amended_unconditional_root_eviction (cfg : QConfig) (now : ℤ)
    (st : QState) (m : TTSMsg)
    (hb : cfg.maxSize ≤ st.queue.length) (hne : st.queue ≠ [])
    (hcur : st.current ≠ none)
    (hdup : (isDuplicate cfg.dupWindow now st.dupSeen m.text).1 = false)
    (hplat : m.platform = none)
    (hheap : IsMinHeap st.queue)
    (hkey : ∀ it ∈ st.queue, it.key = -it.msg.priority) :
    (addMessage cfg now st m).1 = true ∧
    (∃ q, heappop st.queue = some (st.queue.getD 0 default, q) ∧
      (addMessage cfg now st m).2.queue = heappush q (mkPItem m)) ∧
    (addMessage cfg now st m).2.queue.length = st.queue.length ∧
    (∀ it ∈ st.queue, it.msg.priority ≤ (st.queue.getD 0 default).msg.priority) := by
  have hsome : ∃ pr, heappop st.queue = some pr := by
    cases h : heappop st.queue with
    | none => exact absurd ((heappop_eq_none_iff _).mp h) hne
    | some pr => exact ⟨pr, rfl⟩
  obtain ⟨⟨root, q⟩, hpop⟩ := hsome
  have hroot := heappop_fst hpop
  subst hroot
  rcases hid : isDuplicate cfg.dupWindow now st.dupSeen m.text with ⟨dup, seen⟩
  rw [hid] at hdup
  dsimp only at hdup
  subst hdup
  have hmain : addMessage cfg now st m =
      (true, addCore cfg now { st with dupSeen := seen } m) := by
    unfold addMessage
    rw [hid]
    dsimp only
    rw [hplat]
    rfl
  have hq : (addCore cfg now { st with dupSeen := seen } m).queue =
      heappush q (mkPItem m) := by
    unfold addCore
    dsimp only
    rw [if_pos hb, hpop]
    dsimp only
    rw [if_neg (by rw [notify_current]; exact hcur)]
    rw [notify_queue]
  refine ⟨by rw [hmain], ⟨q, hpop, by rw [hmain]; exact hq⟩, ?_,
    isMinHeap_root_max_priority st.queue hheap hkey⟩
  rw [hmain]
  dsimp only
  rw [hq, length_heappush]
  have := heappop_length hpop
  omega

/-- C1 amended witness: the eviction behaviour on the concrete full
bound-two queue holding priorities 3 and 2, offered priority 4. -/
theorem c1_amended_unconditional_root_eviction_witness :
    (addMessage fxCfg 3 fxFull (fxMsg "m4" 4)).1 = true ∧
    (∃ q, heappop fxFull.queue = some (fxFull.queue.getD 0 default, q) ∧
      (addMessage fxCfg 3 fxFull (fxMsg "m4" 4)).2.queue =
        heappush q (mkPItem (fxMsg "m4" 4))) ∧
    (addMessage fxCfg 3 fxFull (fxMsg "m4" 4)).2.queue.length = fxFull.queue.length ∧
    (∀ it ∈ fxFull.queue,
      it.msg.priority ≤ (fxFull.queue.getD 0 default).msg.priority) :=
  c1_amended_unconditional_root_eviction fxCfg 3 fxFull (fxMsg "m4" 4)
    (by decide) (by decide) (by decide) (by decide) rfl
    (by
      intro i h1 h2
      simp [fxFull] at h2
      interval_cases i
      decide)
    (by decide)

theorem tokensFor_dupSeen (st : QState) (p : Platform) (s : List (String × ℤ)) :
    QState.tokensFor { st with dupSeen := s } p = st.tokensFor p := by
  cases p <;> rfl

theorem setTokens_dupSeen (st : QState) (p : Platform) (toks : List ℤ) :
    (st.setTokens p toks).dupSeen = st.dupSeen := by
  cases p <;> rfl

theorem addMessage_of_dup (cfg : QConfig) (now : ℤ) (st : QState) (m : TTSMsg)
    (h : (isDuplicate cfg.dupWindow now st.dupSeen m.text).1 = true) :
    addMessage cfg now st m =
      (false, { st with dupSeen := (isDuplicate cfg.dupWindow now st.dupSeen m.text).2 }) := by
  unfold addMessage
  rcases hid : isDuplicate cfg.dupWindow now st.dupSeen m.text with ⟨dup, seen⟩
  rw [hid] at h
  dsimp only at h
  subst h
  rfl

/-- C10: add_message runs the duplicate check before the rate gate, and
the duplicate detector records the text hash on first sight; a message
rejected by the rate limiter has therefore already registered its text,
and an identical message re-offered within the duplicate window is
rejected at the duplicate stage, leaving the queue and both rate limiter
token lists untouched, even when rate capacity is available. -/
theorem c10_rate_rejected_registers_duplicate
    (cfg : QConfig) (st : QState) (m m2 : TTSMsg) (p : Platform) (t0 t1 : ℤ)
    (hdup : (isDuplicate cfg.dupWindow t0 st.dupSeen m.text).1 = false)
    (hplat : m.platform = some p)
    (hrate : (rateAllowed (cfg.rateFor p) cfg.rateWindow t0 (st.tokensFor p)).1 = false)
    (htext : m2.text = m.text)
    (hwin : t1 - t0 < cfg.dupWindow) :
    (addMessage cfg t0 st m).1 = false ∧
    List.lookup m.text ((addMessage cfg t0 st m).2.dupSeen) = some t0 ∧
    (addMessage cfg t0 st m).2.queue = st.queue ∧
    (addMessage cfg t1 (addMessage cfg t0 st m).2 m2).1 = false ∧
    (addMessage cfg t1 (addMessage cfg t0 st m).2 m2).2.queue =
      (addMessage cfg t0 st m).2.queue ∧
    (addMessage cfg t1 (addMessage cfg t0 st m).2 m2).2.twitchTokens =
      (addMessage cfg t0 st m).2.twitchTokens ∧
    (addMessage cfg t1 (addMessage cfg t0 st m).2 m2).2.youtubeTokens =
      (addMessage cfg t0 st m).2.youtubeTokens := by
  have hl : List.lookup m.text
      (st.dupSeen.filter (fun kv => t0 - kv.2 < cfg.dupWindow)) = none := by
    cases hl2 : List.lookup m.text
        (st.dupSeen.filter (fun kv => t0 - kv.2 < cfg.dupWindow)) with
    | none => rfl
    | some v =>
      exfalso
      have hd : isDuplicate cfg.dupWindow t0 st.dupSeen m.text =
          (true, st.dupSeen.filter (fun kv => t0 - kv.2 < cfg.dupWindow)) := by
        unfold isDuplicate
        dsimp only
        rw [hl2]
      rw [hd] at hdup
      simp at hdup
  have h1 : isDuplicate cfg.dupWindow t0 st.dupSeen m.text =
      (false, (m.text, t0) :: st.dupSeen.filter (fun kv => t0 - kv.2 < cfg.dupWindow)) := by
    unfold isDuplicate
    dsimp only
    rw [hl]
  rcases hra : rateAllowed (cfg.rateFor p) cfg.rateWindow t0 (st.tokensFor p)
    with ⟨ok, toks⟩
  rw [hra] at hrate
  dsimp only at hrate
  subst hrate
  have hadd1 : addMessage cfg t0 st m =
      (false, QState.setTokens
        { st with dupSeen :=
            (m.text, t0) :: st.dupSeen.filter (fun kv => t0 - kv.2 < cfg.dupWindow) }
        p toks) := by
    unfold addMessage
    rw [h1]
    dsimp only
    rw [hplat]
    dsimp only
    rw [tokensFor_dupSeen, hra]
    rfl
  have hseen1 : (addMessage cfg t0 st m).2.dupSeen =
      (m.text, t0) :: st.dupSeen.filter (fun kv => t0 - kv.2 < cfg.dupWindow) := by
    rw [hadd1]
    dsimp only
    rw [setTokens_dupSeen]
  have h2 : (isDuplicate cfg.dupWindow t1 ((addMessage cfg t0 st m).2.dupSeen) m2.text).1
      = true := by
    unfold isDuplicate
    dsimp only
    rw [hseen1, htext, List.filter_cons_of_pos (by simpa using hwin)]
    simp [List.lookup]
  have hadd2 := addMessage_of_dup cfg t1 (addMessage cfg t0 st m).2 m2 h2
  refine ⟨?_, ?_, ?_, ?_, ?_, ?_, ?_⟩
  · rw [hadd1]
  · rw [hseen1]
    simp [List.lookup]
  · rw [hadd1]
    dsimp only
    rw [setTokens_queue]
  · rw [hadd2]
  · rw [hadd2]
  · rw [hadd2]
  · rw [hadd2]

/-- C10 witness: the double rejection on a zero-rate configuration with
two identical offers one second apart. -/
theorem c10_rate_rejected_registers_duplicate_witness :
    (addMessage fxCfg0 0 {} { id := "r1", text := "dup", platform := some .twitch }).1
      = false ∧
    List.lookup "dup"
      ((addMessage fxCfg0 0 {} { id := "r1", text := "dup", platform := some .twitch }).2.dupSeen)
      = some 0 ∧
    True := by
  have h := c10_rate_rejected_registers_duplicate fxCfg0 {}
    { id := "r1", text := "dup", platform := some .twitch }
    { id := "r2", text := "dup", platform := some .twitch }
    .twitch 0 1 (by decide) rfl (by decide) rfl (by decide)
  exact ⟨h.1, h.2.1, trivial⟩

/-- C3 amended: two sequential synthesize calls with the same text,
voice and speed return the same artifact path and issue at most one
backend call between them: the second call is a cache hit and leaves the
cache state unchanged (assuming no eviction runs in between, which the
embedding does not model). -/
theorem c3_amended_sequential_cache_hit (cfg : TTSConfig)
    (backend : String → List Nat) (st : CacheState) (text : String)
    (hne : (pyStrip text.data).isEmpty = false) :
    ∃ p st1, synthesize cfg backend st text = some (p, st1) ∧
      synthesize cfg backend st1 text = some (p, st1) ∧
      st1.backendCalls ≤ st.backendCalls + 1 ∧
      (List.lookup (cacheKey cfg (truncateText cfg text)) st1.entries).isSome = true := by
  unfold synthesize
  rw [hne]
  dsimp only
  cases hl : List.lookup (cacheKey cfg (truncateText cfg text)) st.entries with
  | some bytes =>
    refine ⟨cachePathOf (cacheKey cfg (truncateText cfg text)), st, ?_, ?_,
      Nat.le_succ _, by rw [hl]; rfl⟩
    · rfl
    · rw [hl]
      rfl
  | none =>
    refine ⟨cachePathOf (cacheKey cfg (truncateText cfg text)),
      { entries := (cacheKey cfg (truncateText cfg text),
          backend (truncateText cfg text)) :: st.entries,
        backendCalls := st.backendCalls + 1 }, ?_, ?_, le_refl _, ?_⟩
    · rfl
    · have : List.lookup (cacheKey cfg (truncateText cfg text))
          ((cacheKey cfg (truncateText cfg text), backend (truncateText cfg text)) ::
            st.entries) = some (backend (truncateText cfg text)) := by
        simp [List.lookup]
      rw [this]
      rfl
    · have : List.lookup (cacheKey cfg (truncateText cfg text))
          ((cacheKey cfg (truncateText cfg text), backend (truncateText cfg text)) ::
            st.entries) = some (backend (truncateText cfg text)) := by
        simp [List.lookup]
      rw [this]
      rfl

/-- C3 amended witness: the sequential guarantee on a concrete empty
cache and the text hello. -/
theorem c3_amended_sequential_cache_hit_witness :
    ∃ p st1, synthesize fxTts (fun _ => [1]) {} "hello" = some (p, st1) ∧
      synthesize fxTts (fun _ => [1]) st1 "hello" = some (p, st1) ∧
      st1.backendCalls ≤ ({} : CacheState).backendCalls + 1 ∧
      (List.lookup (cacheKey fxTts (truncateText fxTts "hello")) st1.entries).isSome
        = true :=
  c3_amended_sequential_cache_hit fxTts (fun _ => [1]) {} "hello" (by decide)

theorem pyEraseGo_sublist (pat : List Char) :
    ∀ (fuel : Nat) (l : List Char), List.Sublist (pyEraseGo pat fuel l) l := by
  intro fuel
  induction fuel with
  | zero =>
    intro l
    cases l with
    | nil => simp [pyEraseGo]
    | cons c rest => simp [pyEraseGo]
  | succ n ih =>
    intro l
    cases l with
    | nil => simp [pyEraseGo]
    | cons c rest =>
      rw [pyEraseGo]
      split
      · exact (ih _).trans (List.drop_sublist _ _)
      · exact List.Sublist.cons₂ c (ih rest)

theorem mem_pyEraseGo_single {c : Char} :
    ∀ (fuel : Nat) (l : List Char), l.length ≤ fuel → c ∉ pyEraseGo [c] fuel l := by
  intro fuel
  induction fuel with
  | zero =>
    intro l hl
    have : l = [] := List.length_eq_zero.mp (Nat.le_zero.mp hl)
    subst this
    simp [pyEraseGo]
  | succ n ih =>
    intro l hl
    cases l with
    | nil => simp [pyEraseGo]
    | cons d rest =>
      rw [pyEraseGo]
      simp only [List.length_cons] at hl
      by_cases hd : d = c
      · subst hd
        rw [if_pos (by simp [List.isPrefixOf])]
        exact ih _ (by simpa using Nat.le_of_succ_le_succ hl)
      · rw [if_neg (by simp [List.isPrefixOf]; exact fun h => hd h.symm)]
        intro hmem
        rcases List.mem_cons.mp hmem with h | h
        · exact hd h.symm
        · exact ih rest (Nat.le_of_succ_le_succ hl) h

theorem hasDDot_pyEraseGo :
    ∀ (fuel : Nat) (l : List Char), l.length ≤ fuel →
      hasDDot (pyEraseGo ['.', '.'] fuel l) = false := by
  intro fuel
  induction fuel with
  | zero =>
    intro l hl
    have : l = [] := List.length_eq_zero.mp (Nat.le_zero.mp hl)
    subst this
    simp [pyEraseGo, hasDDot]
  | succ n ih =>
    intro l hl
    cases l with
    | nil => simp [pyEraseGo, hasDDot]
    | cons c rest =>
      simp only [List.length_cons] at hl
      have hl2 : rest.length ≤ n := Nat.le_of_succ_le_succ hl
      rw [pyEraseGo]
      by_cases hm : List.isPrefixOf ['.', '.'] (c :: rest)
      · rw [if_pos hm]
        exact ih _ (le_trans (by simp) hl2)
      · rw [if_neg hm]
        cases rest with
        | nil =>
          have hnil : pyEraseGo ['.', '.'] n [] = [] := by cases n <;> rfl
          rw [hnil]
          rfl
        | cons e rest2 =>
          obtain ⟨k, rfl⟩ : ∃ k, n = k + 1 := by
            cases n with
            | zero => simp at hl2
            | succ k => exact ⟨k, rfl⟩
          by_cases hc : c = '.'
          · subst hc
            have he : ¬(e = '.') := by
              intro h
              subst h
              exact hm (by simp [List.isPrefixOf])
            have hrw : pyEraseGo ['.', '.'] (k + 1) (e :: rest2) =
                e :: pyEraseGo ['.', '.'] k rest2 := by
              rw [pyEraseGo]
              rw [if_neg (by simp [List.isPrefixOf]; exact fun h => absurd h.symm he)]
            rw [hrw]
            have hback := ih (e :: rest2) hl2
            rw [hrw] at hback
            simp only [hasDDot, Bool.or_eq_false_iff]
            exact ⟨by simp [he], hback⟩
          · cases hX : pyEraseGo ['.', '.'] (k + 1) (e :: rest2) with
            | nil => rfl
            | cons d t =>
              have hback := ih (e :: rest2) hl2
              rw [hX] at hback
              simp only [hasDDot, Bool.or_eq_false_iff]
              exact ⟨by simp [hc], hback⟩

theorem sanitizeAudioId_clean (audioId : String) :
    '/' ∉ (sanitizeAudioId audioId).data ∧
    '\\' ∉ (sanitizeAudioId audioId).data ∧
    hasDDot (sanitizeAudioId audioId).data = false := by
  unfold sanitizeAudioId pyErase
  refine ⟨?_, ?_, hasDDot_pyEraseGo _ _ le_rfl⟩
  · intro h
    have h2 := (pyEraseGo_sublist _ _ _).mem h
    have h3 := (pyEraseGo_sublist _ _ _).mem h2
    exact mem_pyEraseGo_single _ _ le_rfl h3
  · intro h
    have h2 := (pyEraseGo_sublist _ _ _).mem h
    exact mem_pyEraseGo_single _ _ le_rfl h2

/-- C8: the audio route strips every slash, backslash and adjacent dot
pair from the requested id; the resolved path is always the cache
directory joined with a single separator-free component, so no file
outside the cache directory is ever served; a sanitized id that does not
name an existing file yields 404; and the id ../etc/passwd sanitizes to
etcpasswd and returns 404 on a filesystem holding /etc/passwd. -/
theorem c8_audio_id_sanitized_within_cache :
    (∀ audioId : String,
      '/' ∉ (sanitizeAudioId audioId).data ∧
      '\\' ∉ (sanitizeAudioId audioId).data ∧
      hasDDot (sanitizeAudioId audioId).data = false) ∧
    (∀ (fs : List String) (cacheDir audioId : String),
      (∀ r, getAudio fs cacheDir audioId = .file r →
        r = cacheDir ++ "/" ++ sanitizeAudioId audioId ++ ".wav" ∧
        r ∈ fs ∧ WithinDir cacheDir r) ∧
      ((cacheDir ++ "/" ++ sanitizeAudioId audioId ++ ".wav") ∉ fs →
        getAudio fs cacheDir audioId = .notFound)) ∧
    sanitizeAudioId "../etc/passwd" = "etcpasswd" ∧
    getAudio ["/etc/passwd", "/cache/abc.wav"] "/cache" "../etc/passwd" = .notFound := by
  refine ⟨sanitizeAudioId_clean, ?_, by decide, by decide⟩
  intro fs cacheDir audioId
  constructor
  · intro r hr
    unfold getAudio getAudioPath at hr
    dsimp only at hr
    by_cases hc : fs.contains (cacheDir ++ "/" ++ sanitizeAudioId audioId ++ ".wav")
    · rw [if_pos hc] at hr
      dsimp only at hr
      cases hr
      refine ⟨rfl, by simpa using hc, ?_⟩
      refine ⟨sanitizeAudioId audioId ++ ".wav",
        String.append_assoc (cacheDir ++ "/") (sanitizeAudioId audioId) ".wav", ?_, ?_, ?_⟩
      · intro h
        rw [String.data_append] at h
        rcases List.mem_append.mp h with h1 | h1
        · exact (sanitizeAudioId_clean audioId).1 h1
        · simp at h1
      · intro h
        have hd := congrArg String.data h
        rw [String.data_append] at hd
        have hl := congrArg List.length hd
        simp at hl
      · intro h
        have hd := congrArg String.data h
        rw [String.data_append] at hd
        have hl := congrArg List.length hd
        simp at hl
    · rw [if_neg hc] at hr
      dsimp only at hr
      cases hr
  · intro hmem
    unfold getAudio getAudioPath
    dsimp only
    rw [if_neg (by simpa using hmem)]

/-- C8 witness: the traversal attempt on a concrete filesystem. -/
theorem c8_audio_id_witness :
    getAudio ["/etc/passwd", "/cache/abc.wav"] "/cache" "../etc/passwd" = .notFound :=
  (c8_audio_id_sanitized_within_cache.2.1
    ["/etc/passwd", "/cache/abc.wav"] "/cache" "../etc/passwd").2 (by decide)

theorem stripEmotesGo_id : ∀ (fuel : Nat) (l : List Char), ':' ∉ l →
    stripEmotesGo fuel l = l := by
  intro fuel
  induction fuel with
  | zero =>
    intro l _
    cases l <;> rfl
  | succ n ih =>
    intro l hl
    cases l with
    | nil => rfl
    | cons c rest =>
      have hc : ¬(c = ':') := fun h => hl (h ▸ List.mem_cons_self c rest)
      rw [stripEmotesGo, if_neg hc, ih rest (fun h => hl (List.mem_cons_of_mem c h))]

theorem mem_of_isPrefixOf :
    ∀ (p l : List Char), p.isPrefixOf l = true → ∀ c ∈ p, c ∈ l := by
  intro p
  induction p with
  | nil => intro l _ c hc; simp at hc
  | cons a p2 ih =>
    intro l h c hc
    cases l with
    | nil => simp [List.isPrefixOf] at h
    | cons b l2 =>
      simp only [List.isPrefixOf, Bool.and_eq_true, beq_iff_eq] at h
      rcases List.mem_cons.mp hc with rfl | hc2
      · rw [h.1]
        exact List.mem_cons_self _ _
      · exact List.mem_cons_of_mem _ (ih l2 h.2 c hc2)

theorem stripUrlsGo_id : ∀ (fuel : Nat) (l : List Char), ':' ∉ l →
    stripUrlsGo fuel l = l := by
  intro fuel
  induction fuel with
  | zero =>
    intro l _
    cases l <;> rfl
  | succ n ih =>
    intro l hl
    cases l with
    | nil => rfl
    | cons c rest =>
      have h1 : ¬(httpChars.isPrefixOf (c :: rest)) := by
        intro h
        exact hl (mem_of_isPrefixOf _ _ h ':' (by decide))
      have h2 : ¬(httpsChars.isPrefixOf (c :: rest)) := by
        intro h
        exact hl (mem_of_isPrefixOf _ _ h ':' (by decide))
      rw [stripUrlsGo]
      simp [h1, h2, ih rest (fun h => hl (List.mem_cons_of_mem c h))]

theorem head?_dropWhile_false (p : Char → Bool) :
    ∀ (l : List Char) {c : Char}, (l.dropWhile p).head? = some c → p c = false := by
  intro l
  induction l with
  | nil => intro c h; simp at h
  | cons a rest ih =>
    intro c h
    rw [List.dropWhile_cons] at h
    by_cases ha : p a
    · rw [if_pos ha] at h
      exact ih h
    · rw [if_neg ha] at h
      simp only [List.head?_cons, Option.some.injEq] at h
      subst h
      simp at ha
      exact ha

theorem getLast?_dropWhile (p : Char → Bool) :
    ∀ l : List Char, l.dropWhile p ≠ [] → (l.dropWhile p).getLast? = l.getLast? := by
  intro l
  induction l with
  | nil => intro h; simp at h
  | cons a rest ih =>
    intro h
    rw [List.dropWhile_cons] at h ⊢
    by_cases ha : p a
    · rw [if_pos ha] at h ⊢
      have hrest : rest ≠ [] := by
        intro he
        subst he
        simp at h
      rw [ih h]
      cases rest with
      | nil => exact absurd rfl hrest
      | cons b t => rw [List.getLast?_cons_cons]
    · rw [if_neg ha]

theorem mem_collapseWsGo :
    ∀ (fuel : Nat) (l : List Char), l.length ≤ fuel →
      ∀ c ∈ collapseWsGo fuel l, (isPySpace c = false ∧ c ∈ l) ∨ c = ' ' := by
  intro fuel
  induction fuel with
  | zero =>
    intro l hl
    have : l = [] := List.length_eq_zero.mp (Nat.le_zero.mp hl)
    subst this
    simp [collapseWsGo]
  | succ n ih =>
    intro l hl
    cases l with
    | nil => simp [collapseWsGo]
    | cons a rest =>
      simp only [List.length_cons] at hl
      have hl2 : rest.length ≤ n := Nat.le_of_succ_le_succ hl
      intro c hc
      rw [collapseWsGo] at hc
      by_cases ha : isPySpace a
      · rw [if_pos ha] at hc
        rcases List.mem_cons.mp hc with h | h
        · exact Or.inr h
        · rcases ih _ (le_trans (List.dropWhile_sublist _).length_le hl2) c h with ⟨h1, h2⟩ | h1
          · exact Or.inl ⟨h1, List.mem_cons_of_mem a ((List.dropWhile_sublist _).subset h2)⟩
          · exact Or.inr h1
      · rw [if_neg ha] at hc
        rcases List.mem_cons.mp hc with h | h
        · subst h
          simp at ha
          exact Or.inl ⟨ha, List.mem_cons_self _ _⟩
        · rcases ih rest hl2 c h with ⟨h1, h2⟩ | h1
          · exact Or.inl ⟨h1, List.mem_cons_of_mem a h2⟩
          · exact Or.inr h1

theorem mem_pyStrip {c : Char} {l : List Char} (h : c ∈ pyStrip l) : c ∈ l := by
  unfold pyStrip at h
  rw [List.mem_reverse] at h
  have h2 := (List.dropWhile_sublist _).subset h
  rw [List.mem_reverse] at h2
  exact (List.dropWhile_sublist _).subset h2

theorem mem_collapseRepeatsGo :
    ∀ (fuel : Nat) (l : List Char) (c : Char), c ∈ collapseRepeatsGo fuel l → c ∈ l := by
  intro fuel
  induction fuel with
  | zero =>
    intro l c h
    cases l with
    | nil => simp [collapseRepeatsGo] at h
    | cons a rest => simp [collapseRepeatsGo] at h; exact List.mem_cons.mpr h
  | succ n ih =>
    intro l c h
    cases l with
    | nil => simp [collapseRepeatsGo] at h
    | cons a rest =>
      rw [collapseRepeatsGo] at h
      by_cases ha : a = '\n'
      · rw [if_pos ha] at h
        rcases List.mem_cons.mp h with h | h
        · exact h ▸ List.mem_cons_self _ _
        · exact List.mem_cons_of_mem a (ih rest c h)
      · rw [if_neg ha] at h
        by_cases hrun : 3 ≤ (rest.takeWhile (· == a)).length
        · rw [if_pos hrun] at h
          rcases List.mem_cons.mp h with h | h
          · exact h ▸ List.mem_cons_self _ _
          · rcases List.mem_cons.mp h with h2 | h2
            · exact h2 ▸ List.mem_cons_self _ _
            · exact List.mem_cons_of_mem a
                ((List.dropWhile_sublist _).subset (ih _ c h2))
        · rw [if_neg hrun] at h
          rcases List.mem_cons.mp h with h | h
          · exact h ▸ List.mem_cons_self _ _
          · exact List.mem_cons_of_mem a (ih rest c h)

theorem noTwoSpaces_tail {c : Char} {l : List Char}
    (h : noTwoSpaces (c :: l) = true) : noTwoSpaces l = true := by
  cases l with
  | nil => rfl
  | cons d t =>
    rw [noTwoSpaces] at h
    simp only [Bool.and_eq_true] at h
    exact h.2

theorem noTwoSpaces_cons (c : Char) (l : List Char)
    (h1 : ∀ d, l.head? = some d → ¬(c = ' ' ∧ d = ' '))
    (h2 : noTwoSpaces l = true) : noTwoSpaces (c :: l) = true := by
  cases l with
  | nil => rfl
  | cons d t =>
    rw [noTwoSpaces]
    simp only [Bool.and_eq_true]
    refine ⟨?_, h2⟩
    have h3 := h1 d rfl
    by_cases hc : c = ' '
    · by_cases hd2 : d = ' '
      · exact absurd ⟨hc, hd2⟩ h3
      · simp [hc, hd2]
    · simp [hc]

theorem noTwoSpaces_append_right :
    ∀ a b : List Char, noTwoSpaces (a ++ b) = true → noTwoSpaces b = true := by
  intro a
  induction a with
  | nil => exact fun b h => h
  | cons c a2 ih =>
    intro b h
    rw [List.cons_append] at h
    exact ih b (noTwoSpaces_tail h)

theorem noTwoSpaces_append_left :
    ∀ a b : List Char, noTwoSpaces (a ++ b) = true → noTwoSpaces a = true := by
  intro a
  induction a with
  | nil => intro b h; rfl
  | cons c a2 ih =>
    intro b h
    cases a2 with
    | nil => rfl
    | cons d t =>
      rw [List.cons_append, List.cons_append, noTwoSpaces] at h
      rw [noTwoSpaces]
      rw [← List.cons_append] at h
      simp only [Bool.and_eq_true] at h ⊢
      exact ⟨h.1, ih b h.2⟩

theorem onlyPlainWs_of_mem {l : List Char}
    (h : ∀ c ∈ l, isPySpace c = false ∨ c = ' ') : onlyPlainWs l = true := by
  unfold onlyPlainWs
  rw [List.all_eq_true]
  intro c hc
  rcases h c hc with h1 | h1
  · simp [h1]
  · simp [h1]

theorem mem_of_onlyPlainWs {l : List Char} (h : onlyPlainWs l = true) :
    ∀ c ∈ l, isPySpace c = false ∨ c = ' ' := by
  unfold onlyPlainWs at h
  rw [List.all_eq_true] at h
  intro c hc
  have := h c hc
  by_cases hs : isPySpace c
  · right
    simpa [hs] using this
  · left
    simpa using hs

theorem noTwoSpaces_pyStrip {l : List Char} (h : noTwoSpaces l = true) :
    noTwoSpaces (pyStrip l) = true := by
  unfold pyStrip
  obtain ⟨t, ht⟩ := List.dropWhile_suffix (l := l) isPySpace
  have hA : noTwoSpaces (l.dropWhile isPySpace) = true := by
    rw [← ht] at h
    exact noTwoSpaces_append_right t _ h
  obtain ⟨t2, ht2⟩ := List.dropWhile_suffix (l := (l.dropWhile isPySpace).reverse) isPySpace
  have hA2 : l.dropWhile isPySpace =
      ((l.dropWhile isPySpace).reverse.dropWhile isPySpace).reverse ++ t2.reverse := by
    have := congrArg List.reverse ht2
    simpa using this.symm
  rw [hA2] at hA
  exact noTwoSpaces_append_left _ _ hA

theorem headNotWs_pyStrip (l : List Char) : headNotWs (pyStrip l) = true := by
  unfold headNotWs pyStrip
  cases hh : ((l.dropWhile isPySpace).reverse.dropWhile isPySpace).reverse.head? with
  | none => rfl
  | some c =>
    rw [List.head?_reverse] at hh
    have hne : (l.dropWhile isPySpace).reverse.dropWhile isPySpace ≠ [] := by
      intro he
      rw [he] at hh
      simp at hh
    rw [getLast?_dropWhile _ _ hne, List.getLast?_reverse] at hh
    dsimp only
    rw [head?_dropWhile_false _ _ hh]
    rfl

theorem lastNotWs_pyStrip (l : List Char) : lastNotWs (pyStrip l) = true := by
  unfold lastNotWs pyStrip
  cases hh : ((l.dropWhile isPySpace).reverse.dropWhile isPySpace).reverse.getLast? with
  | none => rfl
  | some c =>
    rw [List.getLast?_reverse] at hh
    dsimp only
    rw [head?_dropWhile_false _ _ hh]
    rfl

theorem collapseWsGo_head?_of_not_ws (fuel : Nat) (l : List Char)
    (h : ∀ c, l.head? = some c → isPySpace c = false) :
    (collapseWsGo fuel l).head? = l.head? := by
  cases l with
  | nil => cases fuel <;> rfl
  | cons a rest =>
    cases fuel with
    | zero => rfl
    | succ n =>
      rw [collapseWsGo, if_neg (by simp [h a rfl])]
      rfl

theorem noTwoSpaces_collapseWsGo :
    ∀ (fuel : Nat) (l : List Char), l.length ≤ fuel →
      noTwoSpaces (collapseWsGo fuel l) = true := by
  intro fuel
  induction fuel with
  | zero =>
    intro l hl
    have : l = [] := List.length_eq_zero.mp (Nat.le_zero.mp hl)
    subst this
    rfl
  | succ n ih =>
    intro l hl
    cases l with
    | nil => rfl
    | cons a rest =>
      simp only [List.length_cons] at hl
      have hl2 : rest.length ≤ n := Nat.le_of_succ_le_succ hl
      rw [collapseWsGo]
      by_cases ha : isPySpace a
      · rw [if_pos ha]
        refine noTwoSpaces_cons _ _ ?_ (ih _ (le_trans (List.dropWhile_sublist _).length_le hl2))
        intro d hd
        rw [collapseWsGo_head?_of_not_ws _ _
          (fun c hc => head?_dropWhile_false _ _ hc)] at hd
        have := head?_dropWhile_false _ _ hd
        intro hpair
        rw [hpair.2] at this
        simp [isPySpace] at this
      · rw [if_neg ha]
        refine noTwoSpaces_cons _ _ ?_ (ih rest hl2)
        intro d _
        intro hpair
        rw [hpair.1] at ha
        simp [isPySpace] at ha

theorem takeWhile_nil_of_head? {p : Char → Bool} {l : List Char} {b : Char}
    (h : l.head? = some b) (hp : p b = false) : l.takeWhile p = [] := by
  cases l with
  | nil => simp at h
  | cons a rest =>
    simp only [List.head?_cons, Option.some.injEq] at h
    subst h
    rw [List.takeWhile_cons, hp]
    rfl

theorem head?_of_takeWhile_pos {p : Char → Bool} {l : List Char}
    (h : 1 ≤ (l.takeWhile p).length) : ∃ b, l.head? = some b ∧ p b = true := by
  cases l with
  | nil => simp at h
  | cons a rest =>
    rw [List.takeWhile_cons] at h
    by_cases hp : p a
    · exact ⟨a, rfl, hp⟩
    · rw [if_neg hp] at h
      simp at h

theorem getLast?_cons_of_ne_nil {a : Char} {l : List Char} (h : l ≠ []) :
    (a :: l).getLast? = l.getLast? := by
  cases l with
  | nil => exact absurd rfl h
  | cons b t => rw [List.getLast?_cons_cons]

theorem getLast?_all_eq {a : Char} : ∀ {run : List Char}, (∀ x ∈ run, x = a) →
    (a :: run).getLast? = some a := by
  intro run
  induction run with
  | nil => intro; rfl
  | cons r run2 ih =>
    intro h
    rw [List.getLast?_cons_cons]
    have hr : r = a := h r (List.mem_cons_self _ _)
    subst hr
    exact ih (fun x hx => h x (List.mem_cons_of_mem r hx))

theorem collapseRepeatsGo_head? : ∀ (fuel : Nat) (l : List Char),
    (collapseRepeatsGo fuel l).head? = l.head? := by
  intro fuel l
  cases l with
  | nil => cases fuel <;> rfl
  | cons a rest =>
    cases fuel with
    | zero => rfl
    | succ n =>
      rw [collapseRepeatsGo]
      by_cases ha : a = '\n'
      · rw [if_pos ha]
        rfl
      · rw [if_neg ha]
        by_cases hr : 3 ≤ (rest.takeWhile (· == a)).length
        · rw [if_pos hr]
          rfl
        · rw [if_neg hr]
          rfl

theorem collapseRepeatsGo_ne_nil {fuel : Nat} {l : List Char} (h : l ≠ []) :
    collapseRepeatsGo fuel l ≠ [] := by
  intro he
  have := collapseRepeatsGo_head? fuel l
  rw [he] at this
  cases l with
  | nil => exact h rfl
  | cons a rest => simp at this

theorem collapseRepeatsGo_length_le : ∀ (fuel : Nat) (l : List Char),
    (collapseRepeatsGo fuel l).length ≤ l.length := by
  intro fuel
  induction fuel with
  | zero => intro l; cases l <;> simp [collapseRepeatsGo]
  | succ n ih =>
    intro l
    cases l with
    | nil => simp [collapseRepeatsGo]
    | cons a rest =>
      rw [collapseRepeatsGo]
      by_cases ha : a = '\n'
      · rw [if_pos ha]
        simpa using ih rest
      · rw [if_neg ha]
        by_cases hr : 3 ≤ (rest.takeWhile (· == a)).length
        · rw [if_pos hr]
          have hsplit : (rest.takeWhile (· == a)).length +
              (rest.dropWhile (· == a)).length = rest.length := by
            have h2 := congrArg List.length (List.takeWhile_append_dropWhile
              (p := (· == a)) (l := rest))
            rw [List.length_append] at h2
            exact h2
          have hx := ih (rest.dropWhile (· == a))
          simp only [List.length_cons]
          omega
        · rw [if_neg hr]
          simpa using ih rest

theorem collapseRepeatsGo_getLast? : ∀ (fuel : Nat) (l : List Char),
    l.length ≤ fuel → (collapseRepeatsGo fuel l).getLast? = l.getLast? := by
  intro fuel
  induction fuel with
  | zero =>
    intro l hl
    have : l = [] := List.length_eq_zero.mp (Nat.le_zero.mp hl)
    subst this
    rfl
  | succ n ih =>
    intro l hl
    cases l with
    | nil => rfl
    | cons a rest =>
      simp only [List.length_cons] at hl
      have hl2 : rest.length ≤ n := Nat.le_of_succ_le_succ hl
      rw [collapseRepeatsGo]
      by_cases ha : a = '\n'
      · rw [if_pos ha]
        cases hrest : rest with
        | nil =>
          subst hrest
          have : collapseRepeatsGo n ([] : List Char) = [] := by cases n <;> rfl
          rw [this]
        | cons b t =>
          rw [← hrest]
          have hne : rest ≠ [] := by rw [hrest]; simp
          rw [getLast?_cons_of_ne_nil (collapseRepeatsGo_ne_nil hne),
            getLast?_cons_of_ne_nil hne, ih rest hl2]
      · rw [if_neg ha]
        by_cases hr : 3 ≤ (rest.takeWhile (· == a)).length
        · rw [if_pos hr]
          have hall : ∀ x ∈ rest.takeWhile (· == a), x = a := by
            intro x hx
            have := List.mem_takeWhile_imp hx
            simpa using this
          have hsplit := List.takeWhile_append_dropWhile (p := (· == a)) (l := rest)
          cases hrd : rest.dropWhile (· == a) with
          | nil =>
            have hrest2 : ∀ x ∈ rest, x = a := by
              intro x hx
              have hx2 : x ∈ rest.takeWhile (· == a) := by
                have h3 := List.takeWhile_append_dropWhile (p := (· == a)) (l := rest)
                rw [hrd, List.append_nil] at h3
                rw [← h3] at hx
                exact hx
              have := List.mem_takeWhile_imp hx2
              simpa using this
            have hcr : collapseRepeatsGo n ([] : List Char) = [] := by cases n <;> rfl
            rw [hcr]
            have h1 : (a :: a :: ([] : List Char)).getLast? = some a := rfl
            rw [h1]
            exact (getLast?_all_eq hrest2).symm
          | cons c2 t2 =>
            have hne : rest.dropWhile (· == a) ≠ [] := by rw [hrd]; simp
            rw [← hrd]
            have hX : collapseRepeatsGo n (rest.dropWhile (· == a)) ≠ [] :=
              collapseRepeatsGo_ne_nil hne
            rw [List.getLast?_cons_cons, getLast?_cons_of_ne_nil hX,
              ih _ (le_trans (List.dropWhile_sublist _).length_le hl2)]
            have hshape : a :: rest = (a :: rest.takeWhile (· == a)) ++
                rest.dropWhile (· == a) := by
              rw [List.cons_append, hsplit]
            rw [hshape, List.getLast?_append_of_ne_nil _ hne]
        · rw [if_neg hr]
          cases hrest : rest with
          | nil =>
            subst hrest
            have : collapseRepeatsGo n ([] : List Char) = [] := by cases n <;> rfl
            rw [this]
          | cons b t =>
            rw [← hrest]
            have hne : rest ≠ [] := by rw [hrest]; simp
            rw [getLast?_cons_of_ne_nil (collapseRepeatsGo_ne_nil hne),
              getLast?_cons_of_ne_nil hne, ih rest hl2]

theorem noTwoSpaces_head_pair {a : Char} {l : List Char}
    (h : noTwoSpaces (a :: l) = true) :
    ∀ d, l.head? = some d → ¬(a = ' ' ∧ d = ' ') := by
  intro d hd
  cases l with
  | nil => simp at hd
  | cons b t =>
    simp only [List.head?_cons, Option.some.injEq] at hd
    subst hd
    rw [noTwoSpaces] at h
    simp only [Bool.and_eq_true] at h
    intro hp
    have h2 := h.1
    rw [hp.1, hp.2] at h2
    simp at h2

theorem noTwoSpaces_skip_run {c : Char} :
    ∀ (run t : List Char), (∀ x ∈ run, x = c) →
      noTwoSpaces (c :: (run ++ t)) = true → noTwoSpaces (c :: t) = true := by
  intro run
  induction run with
  | nil => intro t _ h; exact h
  | cons r run2 ih =>
    intro t hall h
    have hr : r = c := hall r (List.mem_cons_self _ _)
    subst hr
    rw [List.cons_append] at h
    exact ih t (fun x hx => hall x (List.mem_cons_of_mem _ hx)) (noTwoSpaces_tail h)

theorem head_eq_of_takeWhile_ge {a : Char} {rest : List Char}
    (h : 3 ≤ (rest.takeWhile (· == a)).length) : rest.head? = some a := by
  obtain ⟨b, hb, hpb⟩ := head?_of_takeWhile_pos (p := (· == a)) (l := rest) (by omega)
  rw [hb]
  simp only [beq_iff_eq] at hpb
  rw [hpb]

theorem noTwoSpaces_collapseRepeatsGo :
    ∀ (fuel : Nat) (l : List Char), noTwoSpaces l = true →
      noTwoSpaces (collapseRepeatsGo fuel l) = true := by
  intro fuel
  induction fuel with
  | zero =>
    intro l h
    cases l with
    | nil => exact h
    | cons a rest => simpa [collapseRepeatsGo] using h
  | succ n ih =>
    intro l h
    cases l with
    | nil => rfl
    | cons a rest =>
      rw [collapseRepeatsGo]
      by_cases ha : a = '\n'
      · rw [if_pos ha]
        refine noTwoSpaces_cons _ _ ?_ (ih rest (noTwoSpaces_tail h))
        intro d hd
        rw [collapseRepeatsGo_head?] at hd
        exact noTwoSpaces_head_pair h d hd
      · rw [if_neg ha]
        by_cases hr : 3 ≤ (rest.takeWhile (· == a)).length
        · rw [if_pos hr]
          have hhead := head_eq_of_takeWhile_ge hr
          have hno : ¬(a = ' ' ∧ a = ' ') := noTwoSpaces_head_pair h a hhead
          have hall : ∀ x ∈ rest.takeWhile (· == a), x = a := fun x hx => by
            simpa using List.mem_takeWhile_imp hx
          have hsk : noTwoSpaces (a :: rest.dropWhile (· == a)) = true := by
            refine noTwoSpaces_skip_run _ _ hall ?_
            rw [List.takeWhile_append_dropWhile]
            exact h
          refine noTwoSpaces_cons _ _ ?_ ?_
          · intro d hd
            simp only [List.head?_cons, Option.some.injEq] at hd
            subst hd
            exact hno
          · refine noTwoSpaces_cons _ _ ?_ (ih _ (noTwoSpaces_tail hsk))
            intro d hd
            rw [collapseRepeatsGo_head?] at hd
            exact noTwoSpaces_head_pair hsk d hd
        · rw [if_neg hr]
          refine noTwoSpaces_cons _ _ ?_ (ih rest (noTwoSpaces_tail h))
          intro d hd
          rw [collapseRepeatsGo_head?] at hd
          exact noTwoSpaces_head_pair h d hd

theorem takeWhile_collapseRepeatsGo {a : Char} (ha : ¬(a = '\n')) :
    ∀ (fuel : Nat) (l : List Char), l.length ≤ fuel →
      (l.takeWhile (· == a)).length < 3 →
      (collapseRepeatsGo fuel l).takeWhile (· == a) = l.takeWhile (· == a) := by
  intro fuel
  induction fuel with
  | zero =>
    intro l hl _
    have : l = [] := List.length_eq_zero.mp (Nat.le_zero.mp hl)
    subst this
    rfl
  | succ n ih =>
    intro l hl hshort
    cases l with
    | nil => rfl
    | cons b t =>
      simp only [List.length_cons] at hl
      have hl2 : t.length ≤ n := Nat.le_of_succ_le_succ hl
      by_cases hb : (b == a) = true
      · have hba : b = a := by simpa using hb
        subst hba
        rw [List.takeWhile_cons, if_pos hb] at hshort ⊢
        simp only [List.length_cons] at hshort
        have htshort : (t.takeWhile (· == b)).length < 3 := by omega
        rw [collapseRepeatsGo, if_neg ha, if_neg (by omega)]
        rw [List.takeWhile_cons, if_pos hb]
        rw [ih t hl2 htshort]
      · have hbf : (b == a) = false := by simpa using hb
        have hhead : (collapseRepeatsGo (n + 1) (b :: t)).head? = some b := by
          rw [collapseRepeatsGo_head?]
          rfl
        rw [takeWhile_nil_of_head? hhead hbf,
          takeWhile_nil_of_head? (l := b :: t) rfl hbf]

theorem collapseRepeatsGo_idem :
    ∀ (f1 : Nat) (l : List Char), l.length ≤ f1 →
      ∀ (f2 : Nat), (collapseRepeatsGo f1 l).length ≤ f2 →
        collapseRepeatsGo f2 (collapseRepeatsGo f1 l) = collapseRepeatsGo f1 l := by
  intro f1
  induction f1 with
  | zero =>
    intro l hl f2 _
    have : l = [] := List.length_eq_zero.mp (Nat.le_zero.mp hl)
    subst this
    cases f2 <;> rfl
  | succ n ih =>
    intro l hl f2 hf2
    cases l with
    | nil =>
      have h0 : collapseRepeatsGo (n + 1) ([] : List Char) = [] := rfl
      rw [h0] at hf2 ⊢
      cases f2 <;> rfl
    | cons a rest =>
      simp only [List.length_cons] at hl
      have hl2 : rest.length ≤ n := Nat.le_of_succ_le_succ hl
      by_cases ha : a = '\n'
      · rw [collapseRepeatsGo, if_pos ha] at hf2 ⊢
        simp only [List.length_cons] at hf2
        cases f2 with
        | zero => omega
        | succ k =>
          rw [collapseRepeatsGo, if_pos ha]
          rw [ih rest hl2 k (Nat.le_of_succ_le_succ hf2)]
      · by_cases hr : 3 ≤ (rest.takeWhile (· == a)).length
        · rw [collapseRepeatsGo, if_neg ha, if_pos hr] at hf2 ⊢
          simp only [List.length_cons] at hf2
          have hXhead : ∀ d,
              (collapseRepeatsGo n (rest.dropWhile (· == a))).head? = some d →
              (d == a) = false := by
            intro d hd
            rw [collapseRepeatsGo_head?] at hd
            exact head?_dropWhile_false (fun x => x == a) rest hd
          have htwX : (collapseRepeatsGo n (rest.dropWhile (· == a))).takeWhile (· == a)
              = [] := by
            cases hXc : collapseRepeatsGo n (rest.dropWhile (· == a)) with
            | nil => rfl
            | cons d t =>
              have hd2 : (collapseRepeatsGo n (rest.dropWhile (· == a))).head?
                  = some d := by
                rw [hXc]
                rfl
              exact takeWhile_nil_of_head? (l := d :: t) rfl (hXhead d hd2)
          cases f2 with
          | zero => omega
          | succ k =>
            rw [collapseRepeatsGo, if_neg ha]
            have hcond : ¬ 3 ≤ ((a :: collapseRepeatsGo n
                (rest.dropWhile (· == a))).takeWhile (· == a)).length := by
              rw [List.takeWhile_cons, if_pos (by simp)]
              rw [htwX]
              simp
            rw [if_neg hcond]
            cases k with
            | zero => omega
            | succ k2 =>
              rw [collapseRepeatsGo, if_neg ha,
                if_neg (by rw [htwX]; simp)]
              rw [ih (rest.dropWhile (· == a))
                (le_trans (List.dropWhile_sublist _).length_le hl2) k2 (by omega)]
        · rw [collapseRepeatsGo, if_neg ha, if_neg hr] at hf2 ⊢
          simp only [List.length_cons] at hf2
          cases f2 with
          | zero => omega
          | succ k =>
            rw [collapseRepeatsGo, if_neg ha]
            have hstable := takeWhile_collapseRepeatsGo ha n rest hl2 (by omega)
            rw [if_neg (by rw [hstable]; exact hr)]
            rw [ih rest hl2 k (Nat.le_of_succ_le_succ hf2)]

theorem onlyPlainWs_tail {c : Char} {l : List Char}
    (h : onlyPlainWs (c :: l) = true) : onlyPlainWs l = true := by
  unfold onlyPlainWs at h ⊢
  rw [List.all_cons] at h
  simp only [Bool.and_eq_true] at h
  exact h.2

theorem collapseWsGo_id :
    ∀ (fuel : Nat) (l : List Char), onlyPlainWs l = true → noTwoSpaces l = true →
      collapseWsGo fuel l = l := by
  intro fuel
  induction fuel with
  | zero => intro l _ _; cases l <;> rfl
  | succ n ih =>
    intro l h1 h2
    cases l with
    | nil => rfl
    | cons a rest =>
      rw [collapseWsGo]
      by_cases ha : isPySpace a
      · rw [if_pos ha]
        have ha2 : a = ' ' := by
          rcases mem_of_onlyPlainWs h1 a (List.mem_cons_self _ _) with h | h
          · rw [ha] at h
            cases h
          · exact h
        have hrest : rest.dropWhile isPySpace = rest := by
          cases rest with
          | nil => rfl
          | cons b t =>
            have hb : ¬(b = ' ') := by
              intro hb2
              exact noTwoSpaces_head_pair h2 b rfl ⟨ha2, hb2⟩
            have hbws : isPySpace b = false := by
              rcases mem_of_onlyPlainWs h1 b (by simp) with h | h
              · exact h
              · exact absurd h hb
            rw [List.dropWhile_cons, hbws]
            rfl
        rw [hrest, ih rest (onlyPlainWs_tail h1) (noTwoSpaces_tail h2), ha2]
      · rw [if_neg ha, ih rest (onlyPlainWs_tail h1) (noTwoSpaces_tail h2)]

theorem pyStrip_id (l : List Char) (h1 : headNotWs l = true)
    (h2 : lastNotWs l = true) : pyStrip l = l := by
  unfold pyStrip
  have hd1 : l.dropWhile isPySpace = l := by
    cases l with
    | nil => rfl
    | cons a rest =>
      unfold headNotWs at h1
      simp only [List.head?_cons] at h1
      have ha : isPySpace a = false := by simpa using h1
      rw [List.dropWhile_cons, ha]
      rfl
  rw [hd1]
  have hd2 : l.reverse.dropWhile isPySpace = l.reverse := by
    cases hrev : l.reverse with
    | nil => rfl
    | cons a rest =>
      have hga : l.getLast? = some a := by
        rw [← List.head?_reverse, hrev]
        rfl
      unfold lastNotWs at h2
      rw [hga] at h2
      dsimp only at h2
      have ha : isPySpace a = false := by simpa using h2
      rw [← hrev, hrev, List.dropWhile_cons, ha]
      rfl
  rw [hd2, List.reverse_reverse]

theorem removeSpecial_id {l : List Char}
    (h : ∀ c ∈ l, isSpecialChar c = false) : removeSpecial l = l := by
  unfold removeSpecial
  rw [List.filter_eq_self]
  intro c hc
  simp [h c hc]

theorem cleanText_idem_aux (l : List Char) (hcolon : ':' ∉ l)
    (hspec : ∀ c ∈ l, isSpecialChar c = false) :
    cleanText (cleanText l) = cleanText l := by
  have hy1mem : ∀ c ∈ pyStrip (collapseWs l), c ∈ l ∨ c = ' ' := by
    intro c hc
    rcases mem_collapseWsGo _ _ le_rfl c (mem_pyStrip hc) with ⟨_, h3⟩ | h3
    · exact Or.inl h3
    · exact Or.inr h3
  have hy1spec : ∀ c ∈ pyStrip (collapseWs l), isSpecialChar c = false := by
    intro c hc
    rcases hy1mem c hc with h | h
    · exact hspec c h
    · rw [h]
      decide
  have hinner : cleanText l = collapseRepeats (pyStrip (collapseWs l)) := by
    unfold cleanText
    rw [show stripEmotes l = l from stripEmotesGo_id _ _ hcolon,
      show stripUrls l = l from stripUrlsGo_id _ _ hcolon,
      removeSpecial_id hy1spec]
  rw [hinner]
  have hymem : ∀ c ∈ collapseRepeats (pyStrip (collapseWs l)), c ∈ l ∨ c = ' ' :=
    fun c hc => hy1mem c (mem_collapseRepeatsGo _ _ c hc)
  have hycolon : ':' ∉ collapseRepeats (pyStrip (collapseWs l)) := by
    intro hc
    rcases hymem ':' hc with h | h
    · exact hcolon h
    · exact absurd h (by decide)
  have hyspec : ∀ c ∈ collapseRepeats (pyStrip (collapseWs l)),
      isSpecialChar c = false := by
    intro c hc
    rcases hymem c hc with h | h
    · exact hspec c h
    · rw [h]
      decide
  have n1 : onlyPlainWs (pyStrip (collapseWs l)) = true := by
    refine onlyPlainWs_of_mem ?_
    intro c hc
    rcases mem_collapseWsGo _ _ le_rfl c (mem_pyStrip hc) with ⟨h, _⟩ | h
    · exact Or.inl h
    · exact Or.inr h
  have n2 : noTwoSpaces (pyStrip (collapseWs l)) = true :=
    noTwoSpaces_pyStrip (noTwoSpaces_collapseWsGo _ _ le_rfl)
  have m1 : onlyPlainWs (collapseRepeats (pyStrip (collapseWs l))) = true := by
    refine onlyPlainWs_of_mem ?_
    intro c hc
    exact mem_of_onlyPlainWs n1 c (mem_collapseRepeatsGo _ _ c hc)
  have m2 : noTwoSpaces (collapseRepeats (pyStrip (collapseWs l))) = true :=
    noTwoSpaces_collapseRepeatsGo _ _ n2
  have m3 : headNotWs (collapseRepeats (pyStrip (collapseWs l))) = true := by
    unfold headNotWs
    rw [show (collapseRepeats (pyStrip (collapseWs l))).head?
        = (pyStrip (collapseWs l)).head? from collapseRepeatsGo_head? _ _]
    exact headNotWs_pyStrip _
  have m4 : lastNotWs (collapseRepeats (pyStrip (collapseWs l))) = true := by
    unfold lastNotWs
    rw [show (collapseRepeats (pyStrip (collapseWs l))).getLast?
        = (pyStrip (collapseWs l)).getLast? from collapseRepeatsGo_getLast? _ _ le_rfl]
    exact lastNotWs_pyStrip _
  unfold cleanText
  rw [show stripEmotes (collapseRepeats (pyStrip (collapseWs l)))
      = collapseRepeats (pyStrip (collapseWs l)) from stripEmotesGo_id _ _ hycolon,
    show stripUrls (collapseRepeats (pyStrip (collapseWs l)))
      = collapseRepeats (pyStrip (collapseWs l)) from stripUrlsGo_id _ _ hycolon,
    show collapseWs (collapseRepeats (pyStrip (collapseWs l)))
      = collapseRepeats (pyStrip (collapseWs l)) from collapseWsGo_id _ _ m1 m2,
    pyStrip_id _ m3 m4,
    removeSpecial_id hyspec]
  exact collapseRepeatsGo_idem _ _ le_rfl _ le_rfl

/-- C5 amended: sanitize is idempotent on every input that contains no
colon and none of the removed special characters; in general idempotence
fails because the later stages can synthesize URL or emote tokens that an
earlier stage of a second pass would strip. -/
theorem c5_amended_idempotent_without_colon_special (x : String)
    (hcolon : ':' ∉ x.data)
    (hspec : ∀ c ∈ x.data, isSpecialChar c = false) :
    cleanTextS (cleanTextS x) = cleanTextS x := by
  unfold cleanTextS
  exact congrArg String.mk (cleanText_idem_aux x.data hcolon hspec)

/-- C5 amended witness: idempotence on a concrete colon-free input with
repeated characters and doubled whitespace. -/
theorem c5_amended_idempotent_witness :
    cleanTextS (cleanTextS "Yaay  yes!") = cleanTextS "Yaay  yes!" :=
  c5_amended_idempotent_without_colon_special "Yaay  yes!" (by decide) (by decide)

end FreeStream
